import Mathlib

/-!
# Verification of the NewsScrap core: deduplication, caption segmentation,
# and segment time allocation

Shallow embedding of the algorithmic core of the NewsScrap pipeline:

* `src/subtitles/subtitle_generator.py` — caption segmentation
  (`generate_subtitles`, `_split_text`);
* `src/video/composer.py` — segment time allocation
  (`compute_segment_time_ranges`, `_snap_to_boundary`);
* `src/scraper/dedup.py` — deduplication
  (`ArticleDeduplicator.filter_duplicates`, `_normalize_url`,
  `_normalize_title`, `_is_similar`).

Python strings are modelled as `List Char` (a Python `str` is a sequence of
Unicode code points), Python `int` as `ℤ` (unbounded), and Python float
division composed with `int(...)` truncation as exact rational arithmetic
over `ℚ` followed by truncation toward zero.  The float computations in the
source operate far below the 2^53 precision limit at every concrete input
considered here, so exact rational arithmetic agrees with the float
computation there; theorems quantifying over all inputs describe the
exact-arithmetic reading of the source formulas.
-/

namespace NewsScrap

/-- Convert a Lean string literal to the `List Char` model of a Python `str`. -/
def chars (s : String) : List Char := s.data

/-- Python `str.isspace` / the whitespace class stripped by `str.strip()` and
split on by `str.split()`: the Unicode whitespace code points. -/
def pyIsSpace (c : Char) : Bool :=
  let v := c.toNat
  (9 ≤ v && v ≤ 13) || (28 ≤ v && v ≤ 31) || v == 32 || v == 133 || v == 160 ||
    v == 5760 || (8192 ≤ v && v ≤ 8202) || v == 8232 || v == 8233 ||
    v == 8239 || v == 8287 || v == 12288

/-- Python `str.strip()` with no argument: remove leading and trailing
whitespace. -/
def pyStrip (l : List Char) : List Char :=
  ((l.dropWhile pyIsSpace).reverse.dropWhile pyIsSpace).reverse

/-- Helper for `pySplitWs`: accumulate the current (reversed) token while
scanning. -/
def pySplitWsAux : List Char → List Char → List (List Char)
  | [], acc => if acc = [] then [] else [acc.reverse]
  | c :: rest, acc =>
    if pyIsSpace c then
      if acc = [] then pySplitWsAux rest []
      else acc.reverse :: pySplitWsAux rest []
    else pySplitWsAux rest (c :: acc)

/-- Python `str.split()` with no argument: split on runs of whitespace,
producing no empty tokens. -/
def pySplitWs (l : List Char) : List (List Char) := pySplitWsAux l []

/-- Python `int(q)` on a real number modelled exactly as a rational:
truncation toward zero. -/
def pyTrunc (q : ℚ) : ℤ := if q < 0 then ⌈q⌉ else ⌊q⌋

/-! ## Data model (src/storage/models.py) -/

/-- `WordBoundary`: a TTS timestamp (sentence granularity in edge-tts 7.x). -/
structure WordBoundary where
  text : List Char
  offset_ms : ℤ
  duration_ms : ℤ
deriving DecidableEq

/-- `TTSResult`: result of speech synthesis. -/
structure TTSResult where
  audio_path : List Char
  word_boundaries : List WordBoundary
  duration_ms : ℤ
  provider : List Char
deriving DecidableEq

/-- `SubtitleEntry`: one caption line. -/
structure SubtitleEntry where
  index : ℤ
  start_ms : ℤ
  end_ms : ℤ
  text : List Char
deriving DecidableEq

/-- `BriefingSegment`: one segment of the daily briefing. -/
structure BriefingSegment where
  headline : List Char
  summary : List Char
  source_articles : List (List Char)
  keywords : List (List Char)
deriving DecidableEq

/-- `RSSEntry`: an item collected from an RSS feed (`published_at` is an
epoch timestamp; only `title` and `url` are read by the deduplicator). -/
structure RSSEntry where
  title : List Char
  url : List Char
  source_name : List Char
  source_key : List Char
  category : List Char
  published_at : Option ℤ := none
  description : Option (List Char) := none
  author : Option (List Char) := none
deriving DecidableEq

/-! ## Caption segmentation (src/subtitles/subtitle_generator.py)

`_split_text` has the loop
```
while len(remaining) > max_chars:
    split_pos = max_chars
    for i in range(max_chars, max(0, max_chars - 5), -1):
        if remaining[i] in " ,.:!?·…~":
            split_pos = i + 1
            break
    chunks.append(remaining[:split_pos].strip())
    remaining = remaining[split_pos:].strip()
if remaining:
    chunks.append(remaining)
```
For `max_chars = 0` this loop never terminates on non-trivial input (the
slice `remaining[0:]` is `remaining` itself), so the loop is modelled with
explicit fuel: `none` models a run that does not terminate within the given
number of iterations. -/

/-- The boundary set `" ,.:!?·…~"` of `_split_text`. -/
def boundaryChars : List Char := [' ', ',', '.', ':', '!', '?', '·', '…', '~']

/-- The backward scan `for i in range(max_chars, max(0, max_chars - 5), -1)`
of `_split_text`; the second argument is the number of loop iterations left
(`range` visits `maxChars, maxChars - 1, …, max 0 (maxChars - 5) + 1`).
Every call made below has `i < remaining.length` (the outer loop guarantees
`maxChars < remaining.length`), so the `getD` default is never consulted. -/
def splitPosAux (remaining : List Char) : ℕ → ℕ → Option ℕ
  | _, 0 => none
  | i, k + 1 =>
    if remaining.getD i 'a' ∈ boundaryChars then some (i + 1)
    else splitPosAux remaining (i - 1) k

/-- The split position chosen by one iteration of the `_split_text` loop:
the scan result if a boundary character is found, else `max_chars`. -/
def splitPos (remaining : List Char) (maxChars : ℕ) : ℕ :=
  (splitPosAux remaining maxChars (maxChars - max 0 (maxChars - 5))).getD maxChars

/-- One iteration of the `_split_text` loop body: the emitted chunk
`remaining[:split_pos].strip()` and the new `remaining[split_pos:].strip()`. -/
def splitStep (remaining : List Char) (maxChars : ℕ) : List Char × List Char :=
  let sp := splitPos remaining maxChars
  (pyStrip (remaining.take sp), pyStrip (remaining.drop sp))

/-- The `_split_text` loop with explicit fuel (the loop guard and the final
`if remaining:` append are checked on every path). -/
def splitTextLoop : ℕ → List Char → ℕ → Option (List (List Char))
  | 0, remaining, maxChars =>
    if remaining.length ≤ maxChars then
      some (if remaining = [] then [] else [remaining])
    else none
  | fuel + 1, remaining, maxChars =>
    if remaining.length ≤ maxChars then
      some (if remaining = [] then [] else [remaining])
    else
      (splitTextLoop fuel (splitStep remaining maxChars).2 maxChars).map
        ((splitStep remaining maxChars).1 :: ·)

/-- `_split_text(text, max_chars)`.  Fuel `text.length` suffices whenever
`max_chars ≥ 1` (proved below); `none` models non-termination. -/
def splitText (text : List Char) (maxChars : ℕ) : Option (List (List Char)) :=
  splitTextLoop text.length text maxChars

/-- The per-chunk emission of `generate_subtitles` for one long cue:
`chunk_duration = int(wb.duration_ms * (len(chunk) / total_chars))`,
entries are contiguous starting at the running offset. -/
def emitChunks (idx offset d : ℤ) (totalChars : ℕ) :
    List (List Char) → List SubtitleEntry
  | [] => []
  | chunk :: rest =>
    let ratio : ℚ := (chunk.length : ℚ) / (totalChars : ℚ)
    let chunkDuration := pyTrunc ((d : ℚ) * ratio)
    ⟨idx, offset, offset + chunkDuration, chunk⟩ ::
      emitChunks (idx + 1) (offset + chunkDuration) d totalChars rest

/-- The cue loop of `generate_subtitles`, threading the 1-based index. -/
def generateSubtitlesAux (charsPerSegment : ℕ) :
    ℤ → List WordBoundary → Option (List SubtitleEntry)
  | _, [] => some []
  | idx, wb :: rest =>
    let text := pyStrip wb.text
    if text = [] then generateSubtitlesAux charsPerSegment idx rest
    else if text.length ≤ charsPerSegment then
      (generateSubtitlesAux charsPerSegment (idx + 1) rest).map
        (⟨idx, wb.offset_ms, wb.offset_ms + wb.duration_ms, text⟩ :: ·)
    else
      match splitText text charsPerSegment with
      | none => none
      | some chunks =>
        (generateSubtitlesAux charsPerSegment (idx + chunks.length) rest).map
          (emitChunks idx wb.offset_ms wb.duration_ms text.length chunks ++ ·)

/-- `generate_subtitles(tts_result, chars_per_segment)`
(`DEFAULT_CHARS_PER_SEGMENT = 15`). -/
def generateSubtitles (tts : TTSResult) (charsPerSegment : ℕ := 15) :
    Option (List SubtitleEntry) :=
  if tts.word_boundaries = [] then some []
  else generateSubtitlesAux charsPerSegment 1 tts.word_boundaries

/-! ## Segment time allocation (src/video/composer.py) -/

/-- `_snap_to_boundary(target_ms, boundaries, tolerance_ms)`: snap to the
closest `wb.offset_ms + wb.duration_ms` if strictly closer than the running
best, starting from `best_diff = tolerance_ms + 1`. -/
def snapToBoundary (target_ms : ℤ) (boundaries : List WordBoundary)
    (tolerance_ms : ℤ) : ℤ :=
  (boundaries.foldl
    (fun (best : ℤ × ℤ) wb =>
      let boundaryEnd := wb.offset_ms + wb.duration_ms
      let diff := |boundaryEnd - target_ms|
      if diff < best.2 then (boundaryEnd, diff) else best)
    (target_ms, tolerance_ms + 1)).1

/-- The end cursor computed by one iteration of the
`compute_segment_time_ranges` loop: the proportional tentative end, forced
to `total_duration_ms` for the last segment (`rest = []`), then snapped
when the boundary list is truthy (present and non-empty) and the segment
is not the last. -/
def segEnd (available : ℤ) (totalLen : ℕ)
    (wbs : Option (List WordBoundary)) (total current : ℤ)
    (len : ℕ) (rest : List ℕ) : ℤ :=
  let proportion : ℚ := (len : ℚ) / (totalLen : ℚ)
  let segmentDuration := pyTrunc ((available : ℚ) * proportion)
  let end1 := if rest = [] then total else current + segmentDuration
  match wbs with
  | some bs => if bs ≠ [] ∧ rest ≠ [] then snapToBoundary end1 bs 2000 else end1
  | none => end1

/-- The segment loop of `compute_segment_time_ranges`: `lengths` is the list
of summary lengths still to process (so `rest = []` identifies the last
segment), `current` is the running cursor. -/
def rangesLoop (available : ℤ) (totalLen : ℕ)
    (wbs : Option (List WordBoundary)) (total : ℤ) :
    ℤ → List ℕ → List (ℤ × ℤ)
  | _, [] => []
  | current, len :: rest =>
    let e := segEnd available totalLen wbs total current len rest
    (current, e) :: rangesLoop available totalLen wbs total e rest

/-- `compute_segment_time_ranges(segments, total_duration_ms,
word_boundaries, title_duration_ms)`.  `sum(lengths) or 1` is `1` when the
summed length is `0`. -/
def computeSegmentTimeRanges (segments : List BriefingSegment)
    (total_duration_ms : ℤ) (word_boundaries : Option (List WordBoundary) := none)
    (title_duration_ms : ℤ := 3000) : List (ℤ × ℤ) :=
  if segments = [] then [(title_duration_ms, total_duration_ms)]
  else
    let available_ms := total_duration_ms - title_duration_ms
    let lengths : List ℕ := segments.map (fun s => s.summary.length)
    let total_len := if lengths.sum = 0 then 1 else lengths.sum
    rangesLoop available_ms total_len word_boundaries total_duration_ms
      title_duration_ms lengths

/-! ## URL canonicalization (src/scraper/dedup.py `_normalize_url`)

```
def _normalize_url(url: str) -> str:
    parsed = urlparse(url)
    return urlunparse(parsed._replace(scheme="https", fragment="", query="")).rstrip("/")
```

`urlparse`/`urlunparse` are CPython 3.11 `urllib.parse`, modelled here
faithfully at the code-point level.  Two validation steps of `urlsplit`
delegate to large external libraries: `_check_bracketed_host` (the
`ipaddress`/`re` IPv6 validation run for a bracketed netloc) and the
non-ASCII NFKC branch of `_checknetloc` (`unicodedata`).  They are passed in
as opaque boolean predicates (`UrlChecks`); a parse that raises `ValueError`
is modelled by `none`.  Every theorem below holds for every choice of the
two predicates, and every concrete input evaluated below has a bracket-free
ASCII netloc, for which CPython consults neither library. -/

/-- The two `urlsplit` validation predicates that delegate to external
libraries (`ipaddress` / `unicodedata`); `false` models `ValueError`. -/
structure UrlChecks where
  bracketedHostOk : List Char → Bool
  nfkcNetlocOk : List Char → Bool

/-- Checks that never reject; concrete inputs below never consult them. -/
def defaultChecks : UrlChecks := ⟨fun _ => true, fun _ => true⟩

/-- The WHATWG C0-control-or-space strip applied by `urlsplit` to the left
end of the URL (code points `0x00`–`0x20`). -/
def lstripC0 (l : List Char) : List Char := l.dropWhile (fun c => c.toNat ≤ 32)

/-- `urlsplit` removes the unsafe bytes tab, CR and LF anywhere in the URL. -/
def removeUnsafe (l : List Char) : List Char :=
  l.filter (fun c => !(c == '\t' || c == '\r' || c == '\n'))

/-- `scheme_chars` of `urllib.parse`: ASCII letters, digits, `+`, `-`, `.`. -/
def isSchemeChar (c : Char) : Bool :=
  c.isAlpha || c.isDigit || c == '+' || c == '-' || c == '.'

/-- Index of the first occurrence of `c`, as in `str.find` (as `Option`). -/
def pyFind (c : Char) : List Char → Option ℕ
  | [] => none
  | a :: l => if a = c then some 0 else (pyFind c l).map (· + 1)

/-- Index of the last occurrence of `c`, as in `str.rfind` (as `Option`). -/
def pyRFind (c : Char) (l : List Char) : Option ℕ :=
  (pyFind c l.reverse).map (fun i => l.length - 1 - i)

/-- `str.find(c, start)`: first occurrence at index `≥ start` (as `Option`). -/
def pyFindFrom (c : Char) (start : ℕ) (l : List Char) : Option ℕ :=
  (pyFind c (l.drop start)).map (· + start)

/-- The scheme extraction of `urlsplit`: split at the first `:` when the
prefix is a well-formed scheme (first char an ASCII letter, all chars in
`scheme_chars`); the scheme is lowercased. -/
def schemeSplit (u : List Char) : List Char × List Char :=
  match pyFind ':' u with
  | some i =>
    if 0 < i ∧ (match u.head? with | some c0 => c0.isAlpha | none => false) = true ∧
        (u.take i).all isSchemeChar = true then
      ((u.take i).map Char.toLower, u.drop (i + 1))
    else ([], u)
  | none => ([], u)

/-- `_splitnetloc(url, 2)` without the leading ` //`: the netloc runs to the
earliest of `/`, `?`, `#`. -/
def splitNetloc (u : List Char) : List Char × List Char :=
  (u.takeWhile (fun c => !(c == '/' || c == '?' || c == '#')),
   u.dropWhile (fun c => !(c == '/' || c == '?' || c == '#')))

/-- `netloc.partition('[')[2].partition(']')[0]`: the text between the first
`[` and the following `]`. -/
def bracketedHost (netloc : List Char) : List Char :=
  ((netloc.dropWhile (fun c => !(c == '['))).drop 1).takeWhile (fun c => !(c == ']'))

/-- `str.isascii()`: every code point below 128. -/
def allAscii (l : List Char) : Bool := l.all (fun c => c.toNat ≤ 127)

/-- `str.split(sep, 1)` for a single-character separator known to occur:
the part before the first `c` and the part after it. -/
def splitFirst (c : Char) (l : List Char) : List Char × List Char :=
  (l.takeWhile (fun a => !(a == c)), (l.dropWhile (fun a => !(a == c))).drop 1)

/-- The five `urlsplit` components. -/
structure SplitParts where
  scheme : List Char
  netloc : List Char
  path : List Char
  query : List Char
  fragment : List Char
deriving DecidableEq

/-- The six `urlparse` components (`path` with `params` split off). -/
structure ParseResult where
  scheme : List Char
  netloc : List Char
  path : List Char
  params : List Char
  query : List Char
  fragment : List Char
deriving DecidableEq

/-- `urllib.parse.uses_params`. -/
def usesParamsList : List (List Char) :=
  [chars "", chars "ftp", chars "hdl", chars "prospero", chars "http",
   chars "imap", chars "https", chars "shttp", chars "rtsp", chars "rtsps",
   chars "rtspu", chars "sip", chars "sips", chars "mms", chars "sftp",
   chars "tel"]

/-- `urllib.parse.uses_netloc`. -/
def usesNetlocList : List (List Char) :=
  [chars "", chars "ftp", chars "http", chars "gopher", chars "nntp",
   chars "telnet", chars "imap", chars "wais", chars "file", chars "mms",
   chars "https", chars "shttp", chars "snews", chars "prospero",
   chars "rtsp", chars "rtsps", chars "rtspu", chars "rsync", chars "svn",
   chars "svn+ssh", chars "sftp", chars "nfs", chars "git", chars "git+ssh",
   chars "ws", chars "wss"]

/-- The fragment/query splitting and final netloc check of `urlsplit`
(shared by both netloc branches). -/
def splitTail (C : UrlChecks) (scheme netloc u2 : List Char) :
    Option SplitParts :=
  let f := if '#' ∈ u2 then splitFirst '#' u2 else (u2, [])
  let q := if '?' ∈ f.1 then splitFirst '?' f.1 else (f.1, [])
  if netloc ≠ [] ∧ allAscii netloc = false ∧ C.nfkcNetlocOk netloc = false
  then none
  else some ⟨scheme, netloc, q.1, q.2, f.2⟩

/-- `urllib.parse.urlsplit(url)` (default arguments; `none` = `ValueError`). -/
def urlsplitM (C : UrlChecks) (url0 : List Char) : Option SplitParts :=
  let u0 := removeUnsafe (lstripC0 url0)
  let s := schemeSplit u0
  if s.2.take 2 = ['/', '/'] then
    let n := splitNetloc (s.2.drop 2)
    if ¬ (('[' ∈ n.1) ↔ (']' ∈ n.1)) then none
    else if '[' ∈ n.1 ∧ ']' ∈ n.1 ∧ C.bracketedHostOk (bracketedHost n.1) = false
    then none
    else splitTail C s.1 n.1 n.2
  else splitTail C s.1 [] s.2

/-- `urllib.parse._splitparams`.  The `none` fallbacks are unreachable: the
first is guarded by `'/' ∈ url`, the second by the caller's `';' ∈ url`. -/
def pySplitparams (url : List Char) : List Char × List Char :=
  if '/' ∈ url then
    match pyRFind '/' url with
    | some j =>
      match pyFindFrom ';' j url with
      | some i => (url.take i, url.drop (i + 1))
      | none => (url, [])
    | none => (url, [])
  else
    match pyFind ';' url with
    | some i => (url.take i, url.drop (i + 1))
    | none => (url, [])

/-- `urllib.parse.urlparse(url)`: split off params when the scheme uses
them and the path contains `;`. -/
def urlparseM (C : UrlChecks) (url : List Char) : Option ParseResult :=
  (urlsplitM C url).map (fun sp =>
    if sp.scheme ∈ usesParamsList ∧ ';' ∈ sp.path then
      let pr := pySplitparams sp.path
      ⟨sp.scheme, sp.netloc, pr.1, pr.2, sp.query, sp.fragment⟩
    else ⟨sp.scheme, sp.netloc, sp.path, [], sp.query, sp.fragment⟩)

/-- `urllib.parse.urlunsplit` (CPython 3.11: the `//` is also added when the
scheme uses a netloc and the path does not already begin with `//`). -/
def urlunsplitM (scheme netloc url query fragment : List Char) : List Char :=
  let url1 :=
    if netloc ≠ [] ∨ (scheme ≠ [] ∧ scheme ∈ usesNetlocList ∧ url.take 2 ≠ ['/', '/'])
    then
      let url' := if url ≠ [] ∧ url.head? ≠ some '/' then '/' :: url else url
      '/' :: '/' :: (netloc ++ url')
    else url
  let url2 := if scheme ≠ [] then scheme ++ ':' :: url1 else url1
  let url3 := if query ≠ [] then url2 ++ '?' :: query else url2
  if fragment ≠ [] then url3 ++ '#' :: fragment else url3

/-- `urllib.parse.urlunparse`. -/
def urlunparseM (p : ParseResult) : List Char :=
  let url := if p.params ≠ [] then p.path ++ ';' :: p.params else p.path
  urlunsplitM p.scheme p.netloc url p.query p.fragment

/-- `str.rstrip("/")`. -/
def rstripSlash (l : List Char) : List Char :=
  (l.reverse.dropWhile (fun c => c == '/')).reverse

/-- The recombination performed by `_normalize_url` after parsing:
`urlunparse(parsed._replace(scheme="https", fragment="", query="")).rstrip("/")`. -/
def recombine (p : ParseResult) : List Char :=
  rstripSlash (urlunparseM { p with scheme := chars "https", query := [], fragment := [] })

/-- `_normalize_url(url)` (`none` models the `ValueError` raised by
`urlsplit` on malformed bracketed or non-NFKC netlocs). -/
def normalizeUrl (C : UrlChecks) (url : List Char) : Option (List Char) :=
  (urlparseM C url).map recombine

/-! ## Title normalization (src/scraper/dedup.py `_normalize_title`)

```
title = re.sub(r"\[.*?\]", "", title)
title = re.sub(r"\(.*?\)", "", title)
title = re.sub(r"[^\w\s]", "", title)
title = re.sub(r"\s+", " ", title).strip()
```
-/

/-- Position of the closing delimiter reachable from here for the lazy
pattern `\[.*?\]`: the first `cl`, provided no newline comes first (`.`
does not match `\n`, and backtracking past a newline cannot help since any
later `cl` still has the newline inside the match). -/
def findCloseNoNL (cl : Char) : List Char → Option ℕ
  | [] => none
  | c :: rest =>
    if c = cl then some 0
    else if c = '\n' then none
    else (findCloseNoNL cl rest).map (· + 1)

/-- Fuelled body of `removeDelim`; one unit of fuel is spent per scanned
position, so fuel `l.length` always suffices (each successful match
consumes at least two characters). -/
def removeDelimFuel (op cl : Char) : ℕ → List Char → List Char
  | 0, l => l
  | _ + 1, [] => []
  | fuel + 1, c :: rest =>
    if c = op then
      match findCloseNoNL cl rest with
      | some i => removeDelimFuel op cl fuel (rest.drop (i + 1))
      | none => c :: removeDelimFuel op cl fuel rest
    else c :: removeDelimFuel op cl fuel rest

/-- `re.sub` of the lazy delimited pattern (`\[.*?\]` or `\(.*?\)`) with the
empty string: left-to-right, non-overlapping, shortest close. -/
def removeDelim (op cl : Char) (l : List Char) : List Char :=
  removeDelimFuel op cl l.length l

/-- The `\w` class of Python `re` (Unicode mode): `[a-zA-Z0-9_]` plus the
code points whose character is alphanumeric.  Non-ASCII alphanumericity is
over-approximated as any non-whitespace code point `≥ 0x80`; every theorem
below depends only on the classification of ASCII characters and
whitespace. -/
def pyWordChar (c : Char) : Bool :=
  c.isAlphanum || c == '_' || (128 ≤ c.toNat && !pyIsSpace c)

/-- `re.sub(r"[^\w\s]", "", t)`: keep word characters and whitespace. -/
def removeNonWord (l : List Char) : List Char :=
  l.filter (fun c => pyWordChar c || pyIsSpace c)

/-- Helper for `collapseWs`: the flag records whether the previous character
was whitespace (i.e. we are inside a run already replaced by `' '`). -/
def collapseWsAux : Bool → List Char → List Char
  | _, [] => []
  | prevSpace, c :: rest =>
    if pyIsSpace c then
      if prevSpace then collapseWsAux true rest
      else ' ' :: collapseWsAux true rest
    else c :: collapseWsAux false rest

/-- `re.sub(r"\s+", " ", t)`: each maximal whitespace run becomes one space. -/
def collapseWs (l : List Char) : List Char := collapseWsAux false l

/-- `_normalize_title(title)`. -/
def normalizeTitle (title : List Char) : List Char :=
  pyStrip (collapseWs (removeNonWord
    (removeDelim '(' ')' (removeDelim '[' ']' title))))

/-! ## Deduplication filter (src/scraper/dedup.py) -/

/-- `_is_similar(title, seen, threshold)`: token-set Jaccard similarity
against any seen title (`len(∩)/len(∪) >= threshold`); an empty token set
never matches. -/
def isSimilar (title : List Char) (seen : List (List Char)) (threshold : ℚ) :
    Bool :=
  let tokens := (pySplitWs title).toFinset
  if tokens = ∅ then false
  else seen.any (fun s =>
    let sTokens := (pySplitWs s).toFinset
    if sTokens = ∅ then false
    else threshold ≤ ((tokens ∩ sTokens).card : ℚ) / ((tokens ∪ sTokens).card : ℚ))

/-- The batch loop of `ArticleDeduplicator.filter_duplicates`, with the
already-seen history (`seenUrls`, `seenTitles`) passed explicitly (in the
source they are loaded from the JSON store over the lookback window) and
the in-batch accumulators threaded.  `none` models the `ValueError`
propagated out of `_normalize_url`. -/
def filterDuplicatesAux (C : UrlChecks) (threshold : ℚ)
    (seenUrls seenTitles : List (List Char)) :
    List RSSEntry → List (List Char) → List (List Char) →
    Option (List RSSEntry)
  | [], _, _ => some []
  | e :: rest, batchUrls, batchTitles =>
    match normalizeUrl C e.url with
    | none => none
    | some normUrl =>
      if normUrl ∈ seenUrls ∨ normUrl ∈ batchUrls then
        filterDuplicatesAux C threshold seenUrls seenTitles rest batchUrls batchTitles
      else
        let normTitle := normalizeTitle e.title
        if isSimilar normTitle (seenTitles ++ batchTitles) threshold then
          filterDuplicatesAux C threshold seenUrls seenTitles rest batchUrls batchTitles
        else
          (filterDuplicatesAux C threshold seenUrls seenTitles rest
            (normUrl :: batchUrls) (batchTitles ++ [normTitle])).map (e :: ·)

/-- `ArticleDeduplicator.filter_duplicates(entries)` with the history
window supplied explicitly. -/
def filterDuplicates (C : UrlChecks) (threshold : ℚ)
    (seenUrls seenTitles : List (List Char)) (entries : List RSSEntry) :
    Option (List RSSEntry) :=
  filterDuplicatesAux C threshold seenUrls seenTitles entries [] []

/-! ## Helper lemmas: `pyTrunc` -/

theorem pyTrunc_of_nonneg {q : ℚ} (h : 0 ≤ q) : pyTrunc q = ⌊q⌋ := by
  simp [pyTrunc, not_lt.2 h]

theorem pyTrunc_nonneg {q : ℚ} (h : 0 ≤ q) : 0 ≤ pyTrunc q := by
  rw [pyTrunc_of_nonneg h]; exact Int.floor_nonneg.2 h

theorem pyTrunc_le {q : ℚ} (h : 0 ≤ q) : (pyTrunc q : ℚ) ≤ q := by
  rw [pyTrunc_of_nonneg h]; exact Int.floor_le q

theorem lt_pyTrunc {q : ℚ} (h : 0 ≤ q) : q - 1 < (pyTrunc q : ℚ) := by
  rw [pyTrunc_of_nonneg h]; exact Int.sub_one_lt_floor q

/-! ## Helper lemmas: contiguous range chains -/

/-- `Chained s t l`: `l` is a non-empty list of ranges whose first range
starts at `s`, whose last range ends at `t`, and in which every range
starts where the previous one ends. -/
def Chained (s t : ℤ) : List (ℤ × ℤ) → Prop
  | [] => False
  | [p] => p.1 = s ∧ p.2 = t
  | p :: q :: rest => p.1 = s ∧ Chained p.2 t (q :: rest)

theorem chained_cons {s t b : ℤ} {a : ℤ} {R : List (ℤ × ℤ)} (hR : R ≠ []) :
    Chained s t ((a, b) :: R) ↔ a = s ∧ Chained b t R := by
  cases R with
  | nil => exact absurd rfl hR
  | cons q rest => simp [Chained]

theorem chained_start_le {s t : ℤ} : ∀ {l : List (ℤ × ℤ)}, Chained s t l →
    (∀ p ∈ l, p.1 ≤ p.2) → ∀ p ∈ l, s ≤ p.1
  | [], h, _ => absurd h (by simp [Chained])
  | [p], h, hm => by
    rcases h with ⟨h1, _⟩
    intro r hr
    simp only [List.mem_singleton] at hr
    subst hr; omega
  | p :: q :: rest, h, hm => by
    rcases h with ⟨h1, h2⟩
    intro r hr
    rcases List.mem_cons.1 hr with rfl | hr'
    · omega
    · have hb : p.2 ≤ r.1 :=
        chained_start_le h2 (fun x hx => hm x (List.mem_cons_of_mem _ hx)) r hr'
      have hp : p.1 ≤ p.2 := hm p (List.mem_cons_self _ _)
      omega

theorem chained_end_le {s t : ℤ} : ∀ {l : List (ℤ × ℤ)}, Chained s t l →
    (∀ p ∈ l, p.1 ≤ p.2) → ∀ p ∈ l, p.2 ≤ t
  | [], h, _ => absurd h (by simp [Chained])
  | [p], h, hm => by
    rcases h with ⟨_, h2⟩
    intro r hr
    simp only [List.mem_singleton] at hr
    subst hr; omega
  | p :: q :: rest, h, hm => by
    rcases h with ⟨_, h2⟩
    intro r hr
    rcases List.mem_cons.1 hr with hr' | hr'
    · have hst : ∀ x ∈ q :: rest, r.2 ≤ x.1 := by
        rw [hr']
        exact chained_start_le h2 (fun x hx => hm x (List.mem_cons_of_mem _ hx))
      have hq1 : r.2 ≤ q.1 := hst q (List.mem_cons_self _ _)
      have hq2 : q.2 ≤ t :=
        chained_end_le h2 (fun x hx => hm x (List.mem_cons_of_mem _ hx)) q
          (List.mem_cons_self _ _)
      have hq : q.1 ≤ q.2 := hm q (List.mem_cons_of_mem _ (List.mem_cons_self _ _))
      omega
    · exact chained_end_le h2 (fun x hx => hm x (List.mem_cons_of_mem _ hx)) r hr'

theorem chained_pairwise {s t : ℤ} : ∀ {l : List (ℤ × ℤ)}, Chained s t l →
    (∀ p ∈ l, p.1 ≤ p.2) → l.Pairwise (fun a b => a.2 ≤ b.1)
  | [], _, _ => List.Pairwise.nil
  | [p], _, _ => by simp
  | p :: q :: rest, h, hm => by
    rcases h with ⟨_, h2⟩
    have hm' : ∀ x ∈ q :: rest, x.1 ≤ x.2 :=
      fun x hx => hm x (List.mem_cons_of_mem _ hx)
    refine List.Pairwise.cons ?_ (chained_pairwise h2 hm')
    intro r hr
    exact chained_start_le h2 hm' r hr

theorem chained_cover {s t : ℤ} : ∀ {l : List (ℤ × ℤ)}, Chained s t l →
    (∀ p ∈ l, p.1 ≤ p.2) →
    ∀ x : ℤ, (s ≤ x ∧ x ≤ t) ↔ ∃ p ∈ l, p.1 ≤ x ∧ x ≤ p.2
  | [], h, _ => absurd h (by simp [Chained])
  | [p], h, hm => by
    rcases h with ⟨h1, h2⟩
    intro x
    subst h1 h2
    constructor
    · rintro ⟨ha, hb⟩; exact ⟨p, List.mem_singleton_self _, ha, hb⟩
    · rintro ⟨r, hr, ha, hb⟩
      simp only [List.mem_singleton] at hr
      subst hr; exact ⟨ha, hb⟩
  | p :: q :: rest, h, hm => by
    have hc := h
    rcases h with ⟨h1, h2⟩
    have hm' : ∀ x ∈ q :: rest, x.1 ≤ x.2 :=
      fun x hx => hm x (List.mem_cons_of_mem _ hx)
    intro x
    constructor
    · rintro ⟨ha, hb⟩
      by_cases hx : x ≤ p.2
      · exact ⟨p, List.mem_cons_self _ _, by omega, hx⟩
      · have := (chained_cover h2 hm' x).1 ⟨by omega, hb⟩
        rcases this with ⟨r, hr, hra, hrb⟩
        exact ⟨r, List.mem_cons_of_mem _ hr, hra, hrb⟩
    · rintro ⟨r, hr, hra, hrb⟩
      have hs := chained_start_le hc hm r hr
      have he := chained_end_le hc hm r hr
      omega

/-! ## Helper lemmas: the `compute_segment_time_ranges` loop -/

theorem rangesLoop_ne_nil {available : ℤ} {totalLen : ℕ}
    {wbs : Option (List WordBoundary)} {total current : ℤ}
    {lengths : List ℕ} (h : lengths ≠ []) :
    rangesLoop available totalLen wbs total current lengths ≠ [] := by
  cases lengths with
  | nil => exact absurd rfl h
  | cons l rest => simp [rangesLoop]

/-- For the last segment (`rest = []`) the end cursor is exactly `total`:
the forced end is never snapped. -/
theorem segEnd_last {available : ℤ} {totalLen : ℕ}
    {wbs : Option (List WordBoundary)} {total current : ℤ} {len : ℕ} :
    segEnd available totalLen wbs total current len [] = total := by
  cases wbs with
  | none => simp [segEnd]
  | some bs => simp [segEnd]

theorem rangesLoop_cons {available : ℤ} {totalLen : ℕ}
    {wbs : Option (List WordBoundary)} {total current : ℤ} {len : ℕ}
    {rest : List ℕ} :
    rangesLoop available totalLen wbs total current (len :: rest) =
      (current, segEnd available totalLen wbs total current len rest) ::
        rangesLoop available totalLen wbs total
          (segEnd available totalLen wbs total current len rest) rest := rfl

theorem segEnd_nosnap {available : ℤ} {totalLen : ℕ}
    {wbs : Option (List WordBoundary)} {total current : ℤ} {len : ℕ}
    {rest : List ℕ} (hwbs : wbs = none ∨ wbs = some []) :
    segEnd available totalLen wbs total current len rest =
      if rest = [] then total
      else current + pyTrunc ((available : ℚ) * ((len : ℚ) / (totalLen : ℚ))) := by
  rcases hwbs with rfl | rfl <;> simp [segEnd]

/-- Every run of the segment loop produces a chain from the cursor to
`total`, for any boundary list: the forced last end is never snapped. -/
theorem rangesLoop_chained {available : ℤ} {totalLen : ℕ}
    {wbs : Option (List WordBoundary)} {total : ℤ} :
    ∀ (lengths : List ℕ) (current : ℤ), lengths ≠ [] →
    Chained current total (rangesLoop available totalLen wbs total current lengths)
  | [], _, h => absurd rfl h
  | [l], current, _ => by
    rw [rangesLoop_cons, segEnd_last]
    simp [rangesLoop, Chained]
  | l :: l₂ :: rest, current, _ => by
    have ih := @rangesLoop_chained available totalLen wbs total (l₂ :: rest)
    rw [rangesLoop_cons, chained_cons (rangesLoop_ne_nil (by simp))]
    exact ⟨rfl, ih _ (by simp)⟩

/-- When no snapping can occur (`word_boundaries` falsy), every produced
range has `start ≤ end`, provided the cursor leaves room for the exact
proportional shares of the remaining lengths. -/
theorem rangesLoop_le {available : ℤ} {totalLen : ℕ}
    {wbs : Option (List WordBoundary)} {total : ℤ}
    (hwbs : wbs = none ∨ wbs = some []) (hav : 0 ≤ available)
    (hT : 0 < totalLen) :
    ∀ (lengths : List ℕ) (current : ℤ),
      (current : ℚ) + (available : ℚ) * ((lengths.sum : ℚ) / (totalLen : ℚ)) ≤ (total : ℚ) →
      ∀ p ∈ rangesLoop available totalLen wbs total current lengths, p.1 ≤ p.2
  | [], _, _ => by simp [rangesLoop]
  | len :: rest, current, hbound => by
    have hT' : (0 : ℚ) < (totalLen : ℚ) := by exact_mod_cast hT
    have hav' : (0 : ℚ) ≤ (available : ℚ) := by exact_mod_cast hav
    have hprop : (0 : ℚ) ≤ (available : ℚ) * ((len : ℚ) / (totalLen : ℚ)) := by
      have : (0 : ℚ) ≤ (len : ℚ) / (totalLen : ℚ) :=
        div_nonneg (by positivity) (le_of_lt hT')
      positivity
    have htr := pyTrunc_nonneg hprop
    have htr' := pyTrunc_le hprop
    intro p hp
    rw [rangesLoop_cons] at hp
    rcases List.mem_cons.1 hp with hp' | hp'
    · subst hp'
      rw [segEnd_nosnap hwbs]
      by_cases hrest : rest = []
      · rw [if_pos hrest]
        have hsum : (0 : ℚ) ≤ (available : ℚ) * (((len :: rest).sum : ℚ) / (totalLen : ℚ)) := by
          have : (0 : ℚ) ≤ ((len :: rest).sum : ℚ) / (totalLen : ℚ) :=
            div_nonneg (by positivity) (le_of_lt hT')
          positivity
        have : (current : ℚ) ≤ (total : ℚ) := by linarith
        exact_mod_cast this
      · rw [if_neg hrest]
        simp only
        omega
    · -- membership in the recursive call
      by_cases hrest : rest = []
      · subst hrest
        simp [rangesLoop] at hp'
      · have hnext : (segEnd available totalLen wbs total current len rest : ℚ) +
            (available : ℚ) * ((rest.sum : ℚ) / (totalLen : ℚ)) ≤ (total : ℚ) := by
          rw [segEnd_nosnap hwbs, if_neg hrest, Int.cast_add]
          rw [List.sum_cons, Nat.cast_add] at hbound
          have hsum : (available : ℚ) * (((len : ℚ) + (rest.sum : ℚ)) / (totalLen : ℚ)) =
              (available : ℚ) * ((len : ℚ) / (totalLen : ℚ)) +
              (available : ℚ) * ((rest.sum : ℚ) / (totalLen : ℚ)) := by
            rw [add_div, mul_add]
          rw [hsum] at hbound
          linarith
        exact rangesLoop_le hwbs hav hT rest _ hnext p hp'

/-- C10: for every input to `compute_segment_time_ranges` — any segment
list including the empty one, any durations, any boundary list — the
returned range list is non-empty and unconditionally chained: each range
starts where the previous one ends, the first range starts exactly at
`title_duration_ms`, and the last range ends exactly at
`total_duration_ms` (`Chained` packages exactly these four facts).  This
holds even when snapping or zero-length summaries break monotonic
increase. -/
theorem claim_C10 (segments : List BriefingSegment)
    (total_duration_ms title_duration_ms : ℤ)
    (word_boundaries : Option (List WordBoundary)) :
    Chained title_duration_ms total_duration_ms
      (computeSegmentTimeRanges segments total_duration_ms word_boundaries
        title_duration_ms) := by
  by_cases h : segments = []
  · subst h
    simp [computeSegmentTimeRanges, Chained]
  · unfold computeSegmentTimeRanges
    rw [if_neg h]
    exact rangesLoop_chained _ _ (by simpa using h)

/-- Helper for C4: the loop on all-zero lengths with `totalLen = 1` and no
boundaries produces empty ranges pinned at the cursor, with the whole
interval handed to the last segment. -/
theorem rangesLoop_zero {available total current : ℤ} :
    ∀ n : ℕ, rangesLoop available 1 none total current (List.replicate (n + 1) 0) =
      List.replicate n ((current, current) : ℤ × ℤ) ++ [(current, total)]
  | 0 => by
    rw [List.replicate_one, rangesLoop_cons, segEnd_last]
    simp [rangesLoop]
  | n + 1 => by
    have hz : segEnd available 1 none total current 0 (List.replicate (n + 1) 0) = current := by
      rw [segEnd_nosnap (Or.inl rfl), if_neg (by simp)]
      norm_num [pyTrunc]
    rw [show List.replicate (n + 1 + 1) (0 : ℕ) = 0 :: List.replicate (n + 1) 0 from
      List.replicate_succ 0 (n + 1)]
    rw [rangesLoop_cons, hz, rangesLoop_zero n]
    rw [show List.replicate (n + 1) ((current, current) : ℤ × ℤ) =
      (current, current) :: List.replicate n (current, current) from
      List.replicate_succ (current, current) n]
    rfl

/-- C4 counterexample: with two segments whose summaries are both empty
(total summary length zero), `total_duration_ms = 10000` and
`title_duration_ms = 3000`, the code does NOT distribute the available
7000 ms equally (3500 ms each): `sum(lengths) or 1` makes every weight
`0/1 = 0`, so the first segment gets the empty range `(3000, 3000)` and
the forced last end hands the entire interval to the last segment. -/
theorem claim_C4_counterexample :
    computeSegmentTimeRanges [⟨[], [], [], []⟩, ⟨[], [], [], []⟩] 10000 none 3000 =
        [(3000, 3000), (3000, 10000)] ∧
      computeSegmentTimeRanges [⟨[], [], [], []⟩, ⟨[], [], [], []⟩] 10000 none 3000 ≠
        [(3000, 6500), (6500, 10000)] := by
  have h1 : computeSegmentTimeRanges [⟨[], [], [], []⟩, ⟨[], [], [], []⟩] 10000 none 3000 =
      [(3000, 3000), (3000, 10000)] := by
    unfold computeSegmentTimeRanges
    rw [if_neg (by simp)]
    have h2 := @rangesLoop_zero (10000 - 3000) 10000 3000 1
    simpa using h2
  exact ⟨h1, by rw [h1]; simp⟩

/-- C4 (amended): when the total summary length is zero and no boundary
list is supplied, the allocator does not distribute the available duration
equally; instead every segment except the last receives the empty range
`(title_duration_ms, title_duration_ms)` and the last segment receives the
whole interval `(title_duration_ms, total_duration_ms)` (the `or 1` guard
makes every proportional weight `0/1 = 0` and the forced last end absorbs
everything). -/
theorem claim_C4 (segments : List BriefingSegment) (total title : ℤ)
    (hne : segments ≠ []) (hz : ∀ s ∈ segments, s.summary = []) :
    computeSegmentTimeRanges segments total none title =
      List.replicate (segments.length - 1) ((title, title) : ℤ × ℤ) ++
        [(title, total)] := by
  obtain ⟨n, hn⟩ : ∃ n, segments.length = n + 1 := by
    cases segments with
    | nil => exact absurd rfl hne
    | cons a t => exact ⟨t.length, by simp⟩
  have hmap : segments.map (fun s => s.summary.length) = List.replicate (n + 1) 0 := by
    rw [List.eq_replicate_iff]
    constructor
    · simp [hn]
    · intro b hb
      rcases List.mem_map.1 hb with ⟨s, hs, hsb⟩
      rw [hz s hs] at hsb
      simpa using hsb.symm
  unfold computeSegmentTimeRanges
  rw [if_neg hne, hmap]
  norm_num [List.sum_replicate]
  rw [rangesLoop_zero n, hn]
  simp

/-- C4 witness: the amended statement evaluated at the concrete
counterexample input. -/
theorem claim_C4_witness :
    (([⟨[], [], [], []⟩, ⟨[], [], [], []⟩] : List BriefingSegment) ≠ [] ∧
      ∀ s ∈ ([⟨[], [], [], []⟩, ⟨[], [], [], []⟩] : List BriefingSegment),
        s.summary = []) ∧
    computeSegmentTimeRanges [⟨[], [], [], []⟩, ⟨[], [], [], []⟩] 10000 none 3000 =
      List.replicate 1 ((3000, 3000) : ℤ × ℤ) ++ [(3000, 10000)] :=
  ⟨⟨by simp, by decide⟩,
    claim_C4 [⟨[], [], [], []⟩, ⟨[], [], [], []⟩] 10000 3000 (by simp) (by decide)⟩

/-- C1 counterexample: with a supplied boundary list, snapping can move a
segment end before the segment start.  Two segments with summary lengths 1
and 100, `total = 10000`, `title = 3000`, and one word boundary ending at
1500 ms: the first tentative end is `3000 + int(7000·(1/101)) = 3069`,
within the 2000 ms snap tolerance of 1500, so the first range becomes
`(3000, 1500)` — its end precedes its start, so the returned ranges are
neither monotonically increasing nor non-overlapping, and they do not
cover exactly `[3000, 10000]`. -/
theorem claim_C1_counterexample :
    computeSegmentTimeRanges
        [⟨[], chars "x", [], []⟩, ⟨[], List.replicate 100 'x', [], []⟩]
        10000 (some [⟨[], 1000, 500⟩]) 3000 =
      [(3000, 1500), (1500, 10000)] ∧ (1500 : ℤ) < 3000 := by
  refine ⟨?_, by norm_num⟩
  have he : segEnd 7000 101 (some [⟨[], 1000, 500⟩]) 10000 3000 1 [100] = 1500 := by
    simp only [segEnd]
    rw [if_pos (by simp)]
    have hend1 : (if ([100] : List ℕ) = [] then (10000 : ℤ)
        else 3000 + pyTrunc (((7000 : ℤ) : ℚ) * (((1 : ℕ) : ℚ) / ((101 : ℕ) : ℚ)))) = 3069 := by
      rw [if_neg (by simp)]
      norm_num [pyTrunc]
    rw [hend1]
    decide
  unfold computeSegmentTimeRanges
  rw [if_neg (by simp)]
  have hmap : List.map (fun s => s.summary.length)
      ([⟨[], chars "x", [], []⟩, ⟨[], List.replicate 100 'x', [], []⟩] : List BriefingSegment) =
      [1, 100] := by
    simp [chars]
  simp only [hmap]
  norm_num
  rw [rangesLoop_cons]
  norm_num [he]
  rw [rangesLoop_cons, segEnd_last]
  rfl

/-- C1 (amended): when no boundary list is supplied (or the list is empty,
so snapping is disabled), for every non-empty segment list and every
`total_duration_ms > title_duration_ms` the returned ranges are chained
(contiguous, first start `title`, last end `total`), weakly monotone
(`start ≤ end` in every range; a zero-weight segment yields an empty
range, so the increase is not strict), pairwise non-overlapping, and they
cover exactly `[title_duration_ms, total_duration_ms]`.  With a non-empty
boundary list the property fails (see the counterexample). -/
theorem claim_C1 (segments : List BriefingSegment) (total title : ℤ)
    (wbs : Option (List WordBoundary)) (hne : segments ≠ [])
    (hlt : title < total) (hwbs : wbs = none ∨ wbs = some []) :
    Chained title total (computeSegmentTimeRanges segments total wbs title) ∧
    (∀ p ∈ computeSegmentTimeRanges segments total wbs title, p.1 ≤ p.2) ∧
    (computeSegmentTimeRanges segments total wbs title).Pairwise
      (fun a b => a.2 ≤ b.1) ∧
    ∀ x : ℤ, (title ≤ x ∧ x ≤ total) ↔
      ∃ p ∈ computeSegmentTimeRanges segments total wbs title,
        p.1 ≤ x ∧ x ≤ p.2 := by
  have hch : Chained title total (computeSegmentTimeRanges segments total wbs title) := by
    unfold computeSegmentTimeRanges
    rw [if_neg hne]
    exact rangesLoop_chained _ _ (by simpa using hne)
  have hle : ∀ p ∈ computeSegmentTimeRanges segments total wbs title, p.1 ≤ p.2 := by
    unfold computeSegmentTimeRanges
    rw [if_neg hne]
    set lengths := segments.map (fun s => s.summary.length) with hl
    set T := (if lengths.sum = 0 then 1 else lengths.sum) with hT
    have hTpos : 0 < T := by
      rw [hT]
      split
      · omega
      · omega
    have hsle : lengths.sum ≤ T := by
      rw [hT]
      split
      · omega
      · omega
    apply rangesLoop_le hwbs (by omega) hTpos
    have hT' : (0 : ℚ) < (T : ℚ) := by exact_mod_cast hTpos
    have h1 : ((lengths.sum : ℚ) / (T : ℚ)) ≤ 1 := by
      rw [div_le_one hT']
      exact_mod_cast hsle
    have h2 : (0 : ℚ) ≤ ((total - title : ℤ) : ℚ) := by
      have : (0 : ℤ) ≤ total - title := by omega
      exact_mod_cast this
    have h3 : ((total - title : ℤ) : ℚ) * ((lengths.sum : ℚ) / (T : ℚ)) ≤
        ((total - title : ℤ) : ℚ) :=
      mul_le_of_le_one_right h2 h1
    have h4 : ((total - title : ℤ) : ℚ) = (total : ℚ) - (title : ℚ) := by push_cast; ring
    linarith
  exact ⟨hch, hle, chained_pairwise hch hle, chained_cover hch hle⟩

/-- C1 witness: the amended statement evaluated at two concrete segments
with summary lengths 2 and 1, no boundary list. -/
theorem claim_C1_witness :
    (([⟨[], chars "ab", [], []⟩, ⟨[], chars "c", [], []⟩] : List BriefingSegment) ≠ [] ∧
      (3000 : ℤ) < 10000 ∧
      ((none : Option (List WordBoundary)) = none ∨
        (none : Option (List WordBoundary)) = some [])) ∧
    (Chained 3000 10000 (computeSegmentTimeRanges
        [⟨[], chars "ab", [], []⟩, ⟨[], chars "c", [], []⟩] 10000 none 3000) ∧
      (∀ p ∈ computeSegmentTimeRanges
        [⟨[], chars "ab", [], []⟩, ⟨[], chars "c", [], []⟩] 10000 none 3000,
        p.1 ≤ p.2) ∧
      (computeSegmentTimeRanges
        [⟨[], chars "ab", [], []⟩, ⟨[], chars "c", [], []⟩] 10000 none 3000).Pairwise
        (fun a b => a.2 ≤ b.1) ∧
      ∀ x : ℤ, ((3000 : ℤ) ≤ x ∧ x ≤ 10000) ↔
        ∃ p ∈ computeSegmentTimeRanges
          [⟨[], chars "ab", [], []⟩, ⟨[], chars "c", [], []⟩] 10000 none 3000,
          p.1 ≤ x ∧ x ≤ p.2) :=
  ⟨⟨by simp, by norm_num, Or.inl rfl⟩,
    claim_C1 [⟨[], chars "ab", [], []⟩, ⟨[], chars "c", [], []⟩] 10000 3000 none
      (by simp) (by norm_num) (Or.inl rfl)⟩

/-! ## Helper lemmas: `pyStrip` -/

theorem dropWhile_head?_not {p : Char → Bool} :
    ∀ {l : List Char} {c : Char}, (l.dropWhile p).head? = some c → p c = false := by
  intro l
  induction l with
  | nil => simp
  | cons a t ih =>
    intro c h
    by_cases hp : p a
    · rw [List.dropWhile_cons_of_pos hp] at h
      exact ih h
    · rw [List.dropWhile_cons_of_neg hp] at h
      simp only [List.head?_cons, Option.some.injEq] at h
      subst h
      exact Bool.of_not_eq_true hp

theorem getLast?_dropWhile_ne {p : Char → Bool} :
    ∀ {l : List Char}, l.dropWhile p ≠ [] →
      (l.dropWhile p).getLast? = l.getLast? := by
  intro l
  induction l with
  | nil => simp
  | cons a t ih =>
    intro h
    by_cases hp : p a
    · rw [List.dropWhile_cons_of_pos hp] at h ⊢
      rw [ih h]
      cases t with
      | nil => simp [List.dropWhile] at h
      | cons b t' => simp [List.getLast?_cons_cons]
    · rw [List.dropWhile_cons_of_neg hp]

theorem dropWhile_length_le {p : Char → Bool} :
    ∀ l : List Char, (l.dropWhile p).length ≤ l.length := by
  intro l
  induction l with
  | nil => simp
  | cons a t ih =>
    by_cases hp : p a
    · rw [List.dropWhile_cons_of_pos hp]
      simp only [List.length_cons]
      omega
    · rw [List.dropWhile_cons_of_neg hp]

theorem pyStrip_length_le (l : List Char) : (pyStrip l).length ≤ l.length := by
  unfold pyStrip
  calc ((l.dropWhile pyIsSpace).reverse.dropWhile pyIsSpace).reverse.length
      = ((l.dropWhile pyIsSpace).reverse.dropWhile pyIsSpace).length := by
        rw [List.length_reverse]
    _ ≤ (l.dropWhile pyIsSpace).reverse.length := dropWhile_length_le _
    _ = (l.dropWhile pyIsSpace).length := by rw [List.length_reverse]
    _ ≤ l.length := dropWhile_length_le _

theorem pyStrip_head {l : List Char} {c : Char}
    (h : (pyStrip l).head? = some c) : pyIsSpace c = false := by
  unfold pyStrip at h
  rw [List.head?_reverse] at h
  have hne : (l.dropWhile pyIsSpace).reverse.dropWhile pyIsSpace ≠ [] := by
    intro hnil
    rw [hnil] at h
    simp at h
  rw [getLast?_dropWhile_ne hne, List.getLast?_reverse] at h
  exact dropWhile_head?_not h

theorem pyStrip_getLast {l : List Char} {c : Char}
    (h : (pyStrip l).getLast? = some c) : pyIsSpace c = false := by
  unfold pyStrip at h
  rw [List.getLast?_reverse] at h
  exact dropWhile_head?_not h

theorem pyStrip_ne_nil {l : List Char} {c : Char}
    (hh : l.head? = some c) (hc : pyIsSpace c = false) : pyStrip l ≠ [] := by
  cases l with
  | nil => simp at hh
  | cons a t =>
    simp only [List.head?_cons, Option.some.injEq] at hh
    subst hh
    unfold pyStrip
    rw [List.dropWhile_cons_of_neg (by simp [hc])]
    intro hnil
    rw [List.reverse_eq_nil_iff, List.dropWhile_eq_nil_iff] at hnil
    have hmem := hnil a (by simp)
    rw [hc] at hmem
    exact Bool.false_ne_true hmem

theorem pyStrip_eq_self_head {l : List Char} {c : Char}
    (hs : pyStrip l = l) (hh : l.head? = some c) : pyIsSpace c = false :=
  pyStrip_head (by rw [hs]; exact hh)

/-! ## Helper lemmas: the `_split_text` loop -/

theorem splitPosAux_bounds {remaining : List Char} :
    ∀ {k i v : ℕ}, splitPosAux remaining i k = some v → 1 ≤ v ∧ v ≤ i + 1 := by
  intro k
  induction k with
  | zero => intro i v h; simp [splitPosAux] at h
  | succ k ih =>
    intro i v h
    rw [splitPosAux] at h
    split at h
    · simp only [Option.some.injEq] at h
      omega
    · have := ih h
      omega

theorem splitPos_pos {remaining : List Char} {maxChars : ℕ}
    (h : 1 ≤ maxChars) : 1 ≤ splitPos remaining maxChars := by
  unfold splitPos
  cases haux : splitPosAux remaining maxChars (maxChars - max 0 (maxChars - 5)) with
  | none => simpa using h
  | some v => simpa using (splitPosAux_bounds haux).1

theorem splitPos_le {remaining : List Char} {maxChars : ℕ} :
    splitPos remaining maxChars ≤ maxChars + 1 := by
  unfold splitPos
  cases haux : splitPosAux remaining maxChars (maxChars - max 0 (maxChars - 5)) with
  | none => simp
  | some v => simpa using (splitPosAux_bounds haux).2

theorem splitStep_shrink {remaining : List Char} {maxChars : ℕ}
    (hmc : 1 ≤ maxChars) (hlen : maxChars < remaining.length) :
    (splitStep remaining maxChars).2.length < remaining.length := by
  unfold splitStep
  simp only
  calc (pyStrip (remaining.drop (splitPos remaining maxChars))).length
      ≤ (remaining.drop (splitPos remaining maxChars)).length :=
        pyStrip_length_le _
    _ = remaining.length - splitPos remaining maxChars := List.length_drop _ _
    _ < remaining.length := by
        have := @splitPos_pos remaining _ hmc
        omega

theorem splitTextLoop_isSome {maxChars : ℕ} (hmc : 1 ≤ maxChars) :
    ∀ (fuel : ℕ) (remaining : List Char),
      remaining.length ≤ fuel + maxChars →
      (splitTextLoop fuel remaining maxChars).isSome := by
  intro fuel
  induction fuel with
  | zero =>
    intro remaining hlen
    rw [splitTextLoop, if_pos (by omega)]
    simp
  | succ fuel ih =>
    intro remaining hlen
    rw [splitTextLoop]
    by_cases hle : remaining.length ≤ maxChars
    · rw [if_pos hle]; simp
    · rw [if_neg hle]
      have hs := @splitStep_shrink remaining maxChars hmc (by omega)
      have h2 := ih (splitStep remaining maxChars).2 (by omega)
      rcases Option.isSome_iff_exists.1 h2 with ⟨cs, hcs⟩
      rw [hcs]
      simp

/-- Chunk shape invariant of the `_split_text` loop: provided the remaining
text never starts with whitespace (it is stripped at every step), every
produced chunk is non-empty and at most `max_chars + 1` characters long. -/
theorem splitTextLoop_chunks {maxChars : ℕ} (hmc : 1 ≤ maxChars) :
    ∀ (fuel : ℕ) (remaining : List Char) (chunks : List (List Char)),
      (∀ c, remaining.head? = some c → pyIsSpace c = false) →
      splitTextLoop fuel remaining maxChars = some chunks →
      ∀ ch ∈ chunks, ch ≠ [] ∧ ch.length ≤ maxChars + 1 := by
  intro fuel
  induction fuel with
  | zero =>
    intro remaining chunks hhead h
    rw [splitTextLoop] at h
    split at h
    · rename_i hlen
      simp only [Option.some.injEq] at h
      subst h
      split
      · simp
      · rename_i hne
        intro ch hch
        simp only [List.mem_singleton] at hch
        subst hch
        exact ⟨hne, by omega⟩
    · simp at h
  | succ fuel ih =>
    intro remaining chunks hhead h
    rw [splitTextLoop] at h
    split at h
    · rename_i hlen
      simp only [Option.some.injEq] at h
      subst h
      split
      · simp
      · rename_i hne
        intro ch hch
        simp only [List.mem_singleton] at hch
        subst hch
        exact ⟨hne, by omega⟩
    · rename_i hlen
      simp only [Option.map_eq_some'] at h
      rcases h with ⟨cs, hcs, hchunks⟩
      subst hchunks
      have hrem_ne : remaining ≠ [] := by
        intro hnil
        rw [hnil] at hlen
        simp at hlen
      obtain ⟨c0, t0, rfl⟩ : ∃ c0 t0, remaining = c0 :: t0 := by
        cases remaining with
        | nil => exact absurd rfl hrem_ne
        | cons a t => exact ⟨a, t, rfl⟩
      have hc0 : pyIsSpace c0 = false := hhead c0 rfl
      intro ch hch
      rcases List.mem_cons.1 hch with hch' | hch'
      · subst hch'
        constructor
        · have hsp := @splitPos_pos (c0 :: t0) _ hmc
          have htake : ((c0 :: t0).take (splitPos (c0 :: t0) maxChars)).head? = some c0 := by
            cases hk : splitPos (c0 :: t0) maxChars with
            | zero => omega
            | succ k => simp [List.take_cons]
          exact pyStrip_ne_nil htake hc0
        · calc (pyStrip ((c0 :: t0).take (splitPos (c0 :: t0) maxChars))).length
              ≤ ((c0 :: t0).take (splitPos (c0 :: t0) maxChars)).length :=
                pyStrip_length_le _
            _ ≤ splitPos (c0 :: t0) maxChars := by
                rw [List.length_take]; omega
            _ ≤ maxChars + 1 := splitPos_le
      · exact ih _ cs (fun c hc => pyStrip_head hc) hcs ch hch'

/-- The cue loop always succeeds once the splitter does. -/
theorem generateSubtitlesAux_isSome {maxChars : ℕ} (hmc : 1 ≤ maxChars) :
    ∀ (wbs : List WordBoundary) (idx : ℤ),
      (generateSubtitlesAux maxChars idx wbs).isSome := by
  intro wbs
  induction wbs with
  | nil => intro idx; simp [generateSubtitlesAux]
  | cons wb rest ih =>
    intro idx
    rw [generateSubtitlesAux]
    split
    · exact ih idx
    · split
      · rcases Option.isSome_iff_exists.1 (ih (idx + 1)) with ⟨es, hes⟩
        rw [hes]
        simp
      · rename_i hlen
        have hsome := splitTextLoop_isSome hmc (pyStrip wb.text).length
          (pyStrip wb.text) (by omega)
        rcases Option.isSome_iff_exists.1 hsome with ⟨cs, hcs⟩
        rw [show splitText (pyStrip wb.text) maxChars =
          splitTextLoop (pyStrip wb.text).length (pyStrip wb.text) maxChars from rfl]
        rw [hcs]
        simp only
        rcases Option.isSome_iff_exists.1 (ih (idx + cs.length)) with ⟨es, hes⟩
        rw [hes]
        simp

/-- C9: the caption segmenter is total for every `max_chars ≥ 1`: the
`_split_text` loop terminates within `len(text)` iterations on every text
(the fuelled model returns `some`), `generate_subtitles` therefore returns
a result on every cue list, and an empty cue list yields the empty entry
list. -/
theorem claim_C9 (maxChars : ℕ) (hmc : 1 ≤ maxChars) :
    (∀ text : List Char, (splitText text maxChars).isSome) ∧
    (∀ tts : TTSResult, (generateSubtitles tts maxChars).isSome) ∧
    ∀ tts : TTSResult, tts.word_boundaries = [] →
      generateSubtitles tts maxChars = some [] := by
  refine ⟨?_, ?_, ?_⟩
  · intro text
    exact splitTextLoop_isSome hmc text.length text (by omega)
  · intro tts
    rw [generateSubtitles]
    split
    · simp
    · exact generateSubtitlesAux_isSome hmc tts.word_boundaries 1
  · intro tts hempty
    rw [generateSubtitles, if_pos hempty]

/-- C9 witness: the totality statement evaluated at `max_chars = 15`,
together with a concrete long text, a concrete cue list and the empty cue
list. -/
theorem claim_C9_witness :
    (1 ≤ 15) ∧
    ((splitText (chars "hello, world: this is a test sentence!") 15).isSome ∧
      (generateSubtitles ⟨[], [⟨chars "short one", 100, 200⟩], 0, []⟩ 15).isSome ∧
      generateSubtitles ⟨[], [], 0, []⟩ 15 = some []) :=
  ⟨by norm_num,
    (claim_C9 15 (by norm_num)).1 (chars "hello, world: this is a test sentence!"),
    (claim_C9 15 (by norm_num)).2.1 ⟨[], [⟨chars "short one", 100, 200⟩], 0, []⟩,
    (claim_C9 15 (by norm_num)).2.2 ⟨[], [], 0, []⟩ rfl⟩

/-- C2 counterexample: the trimmed 16-character text `"a"*15 + ","` with
`max_chars = 15` is returned as a single 16-character chunk: the backward
scan starts at index `max_chars` itself, finds the comma there, and cuts
after it (`split_pos = 16`), so the chunk exceeds `max_chars` — refuting
`len(chunk) <= max_chars`. -/
theorem claim_C2_counterexample :
    pyStrip (chars "aaaaaaaaaaaaaaa,") = chars "aaaaaaaaaaaaaaa," ∧
    splitText (chars "aaaaaaaaaaaaaaa,") 15 = some [chars "aaaaaaaaaaaaaaa,"] ∧
    (chars "aaaaaaaaaaaaaaa,").length = 16 ∧
    ¬ ((chars "aaaaaaaaaaaaaaa,").length ≤ 15) :=
  ⟨by decide, by decide, by decide, by decide⟩

/-- C2 (amended): for every trimmed text and every `max_chars ≥ 1`, the
splitter produces an ordered list of non-empty chunks each of length at
most `max_chars + 1` — one more than `max_chars`, reached when a
punctuation boundary sits at index `max_chars` itself, because the cut
includes the boundary character (`split_pos = i + 1` with the scan
starting at `i = max_chars`). -/
theorem claim_C2 (text : List Char) (maxChars : ℕ) (chunks : List (List Char))
    (hmc : 1 ≤ maxChars) (htrim : pyStrip text = text)
    (hsplit : splitText text maxChars = some chunks) :
    ∀ ch ∈ chunks, ch ≠ [] ∧ ch.length ≤ maxChars + 1 :=
  splitTextLoop_chunks hmc text.length text chunks
    (fun _ hc => pyStrip_eq_self_head htrim hc) hsplit

/-- C2 witness: the amended statement evaluated on a concrete trimmed
38-character text with `max_chars = 15`. -/
theorem claim_C2_witness :
    ((1 ≤ 15) ∧
      pyStrip (chars "hello, world: this is a test sentence!") =
        chars "hello, world: this is a test sentence!" ∧
      splitText (chars "hello, world: this is a test sentence!") 15 =
        some [chars "hello, world:", chars "this is a test", chars "sentence!"]) ∧
    ∀ ch ∈ [chars "hello, world:", chars "this is a test", chars "sentence!"],
      ch ≠ [] ∧ ch.length ≤ 15 + 1 :=
  ⟨⟨by norm_num, by decide, by decide⟩,
    claim_C2 (chars "hello, world: this is a test sentence!") 15
      [chars "hello, world:", chars "this is a test", chars "sentence!"]
      (by norm_num) (by decide) (by decide)⟩

/-! ## Helper lemmas: chunk entries of `generate_subtitles` -/

theorem emitChunks_le {d : ℤ} (hd : 0 ≤ d) {L : ℕ} :
    ∀ (chunks : List (List Char)) (idx offset : ℤ),
      ∀ e ∈ emitChunks idx offset d L chunks, e.start_ms ≤ e.end_ms := by
  intro chunks
  induction chunks with
  | nil => intro idx offset e he; simp [emitChunks] at he
  | cons chunk rest ih =>
    intro idx offset e he
    have harg : (0 : ℚ) ≤ (d : ℚ) * ((chunk.length : ℚ) / (L : ℚ)) :=
      mul_nonneg (by exact_mod_cast hd) (div_nonneg (by positivity) (by positivity))
    simp only [emitChunks, List.mem_cons] at he
    rcases he with he' | he'
    · subst he'
      simp only
      have := pyTrunc_nonneg harg
      omega
    · exact ih _ _ e he'

theorem generateSubtitlesAux_le {maxChars : ℕ} :
    ∀ (wbs : List WordBoundary) (idx : ℤ) (entries : List SubtitleEntry),
      (∀ wb ∈ wbs, 0 ≤ wb.duration_ms) →
      generateSubtitlesAux maxChars idx wbs = some entries →
      ∀ e ∈ entries, e.start_ms ≤ e.end_ms := by
  intro wbs
  induction wbs with
  | nil =>
    intro idx entries _ h
    simp only [generateSubtitlesAux, Option.some.injEq] at h
    subst h
    simp
  | cons wb rest ih =>
    intro idx entries hd h
    have hdwb : 0 ≤ wb.duration_ms := hd wb (List.mem_cons_self _ _)
    have hdrest : ∀ w ∈ rest, 0 ≤ w.duration_ms :=
      fun w hw => hd w (List.mem_cons_of_mem _ hw)
    rw [generateSubtitlesAux] at h
    split at h
    · exact ih idx entries hdrest h
    · split at h
      · simp only [Option.map_eq_some'] at h
        rcases h with ⟨es, hes, hentries⟩
        subst hentries
        intro e he
        rcases List.mem_cons.1 he with he' | he'
        · subst he'
          simp only
          omega
        · exact ih _ es hdrest hes e he'
      · cases hsp : splitText (pyStrip wb.text) maxChars with
        | none => rw [hsp] at h; simp at h
        | some chunks =>
          rw [hsp] at h
          simp only [Option.map_eq_some'] at h
          rcases h with ⟨es, hes, hentries⟩
          subst hentries
          intro e he
          rcases List.mem_append.1 he with he' | he'
          · exact emitChunks_le hdwb chunks idx wb.offset_ms e he'
          · exact ih _ es hdrest hes e he'

/-- C5 counterexample: a cue with `duration_ms = 0` and non-empty short
text produces the entry `(index 1, start 0, end 0)` — `start_ms < end_ms`
fails. -/
theorem claim_C5_counterexample :
    generateSubtitles ⟨[], [⟨chars "a", 0, 0⟩], 0, []⟩ 15 =
      some [⟨1, 0, 0, chars "a"⟩] ∧ ¬ ((0 : ℤ) < 0) :=
  ⟨by decide, by decide⟩

/-- C5 (amended): every emitted caption entry satisfies
`start_ms ≤ end_ms` (weak, not strict, inequality), provided every cue has
non-negative `duration_ms`; a zero-duration cue, or integer truncation of
a chunk share, can make the duration exactly zero. -/
theorem claim_C5 (tts : TTSResult) (maxChars : ℕ)
    (entries : List SubtitleEntry)
    (hd : ∀ wb ∈ tts.word_boundaries, 0 ≤ wb.duration_ms)
    (hgen : generateSubtitles tts maxChars = some entries) :
    ∀ e ∈ entries, e.start_ms ≤ e.end_ms := by
  rw [generateSubtitles] at hgen
  split at hgen
  · simp only [Option.some.injEq] at hgen
    subst hgen
    simp
  · exact generateSubtitlesAux_le tts.word_boundaries 1 entries hd hgen

/-- C5 witness: the amended statement evaluated on a concrete short cue. -/
theorem claim_C5_witness :
    ((∀ wb ∈ (⟨[], [⟨chars "ok", 5, 7⟩], 0, []⟩ : TTSResult).word_boundaries,
        0 ≤ wb.duration_ms) ∧
      generateSubtitles ⟨[], [⟨chars "ok", 5, 7⟩], 0, []⟩ 15 =
        some [⟨1, 5, 12, chars "ok"⟩]) ∧
    ∀ e ∈ [(⟨1, 5, 12, chars "ok"⟩ : SubtitleEntry)], e.start_ms ≤ e.end_ms :=
  ⟨⟨by decide, by decide⟩,
    claim_C5 ⟨[], [⟨chars "ok", 5, 7⟩], 0, []⟩ 15 [⟨1, 5, 12, chars "ok"⟩]
      (by decide) (by decide)⟩

/-- C3 counterexample: the 40-character cue
`"a"*14 + " " + "a"*14 + " " + "a"*10` with `max_chars = 15` and
`duration_ms = 100000` splits into chunks of 14, 14 and 10 characters (the
two boundary spaces are stripped), whose durations
`int(100000·14/40) + int(100000·14/40) + int(100000·10/40) = 95000` fall
short of the cue duration by 5000 ms — far more than the claimed bound of
`k = 3` (the number of chunks). -/
theorem claim_C3_counterexample :
    splitText (chars "aaaaaaaaaaaaaa aaaaaaaaaaaaaa aaaaaaaaaa") 15 =
      some [List.replicate 14 'a', List.replicate 14 'a', List.replicate 10 'a'] ∧
    ((emitChunks 1 0 100000 40
        [List.replicate 14 'a', List.replicate 14 'a', List.replicate 10 'a']).map
      (fun e => e.end_ms - e.start_ms)).sum = 95000 ∧
    ¬ (|(95000 : ℤ) - 100000| ≤ 3) := by
  refine ⟨by decide, ?_, by decide⟩
  have e14 : pyTrunc (((100000 : ℤ) : ℚ) *
      (((List.replicate 14 'a').length : ℚ) / ((40 : ℕ) : ℚ))) = 35000 := by
    norm_num [pyTrunc]
  have e10 : pyTrunc (((100000 : ℤ) : ℚ) *
      (((List.replicate 10 'a').length : ℚ) / ((40 : ℕ) : ℚ))) = 25000 := by
    norm_num [pyTrunc]
  simp only [emitChunks, e14, e10, List.map_cons, List.map_nil, List.sum_cons,
    List.sum_nil]
  norm_num

/-- C3 (amended): over one cue of length `L > 0` with duration `d ≥ 0`
split into `k` chunks, the sum of the integer chunk durations
`int(d·len(chunk)/L)` lies within `k` milliseconds of
`d · (Σ len(chunk)) / L` — the exact proportional share of the characters
that survive into chunks.  Because the splitter strips boundary
whitespace, `Σ len(chunk)` can be smaller than `L`, so the sum can fall
short of `d` itself by an additional `d · (L - Σ len(chunk)) / L`, which
is unbounded in `k`. -/
theorem claim_C3 (d : ℤ) (L : ℕ) (idx offset : ℤ) (chunks : List (List Char))
    (hd : 0 ≤ d) (hL : 0 < L) :
    (d : ℚ) * (((chunks.map List.length).sum : ℕ) : ℚ) / (L : ℚ) -
        chunks.length ≤
      ((((emitChunks idx offset d L chunks).map
        (fun e => e.end_ms - e.start_ms)).sum : ℤ) : ℚ) ∧
    ((((emitChunks idx offset d L chunks).map
        (fun e => e.end_ms - e.start_ms)).sum : ℤ) : ℚ) ≤
      (d : ℚ) * (((chunks.map List.length).sum : ℕ) : ℚ) / (L : ℚ) := by
  induction chunks generalizing idx offset with
  | nil => simp [emitChunks]
  | cons chunk rest ih =>
    have harg : (0 : ℚ) ≤ (d : ℚ) * ((chunk.length : ℚ) / (L : ℚ)) :=
      mul_nonneg (by exact_mod_cast hd) (div_nonneg (by positivity) (by positivity))
    have ht1 := pyTrunc_le harg
    have ht2 := lt_pyTrunc harg
    obtain ⟨ih1, ih2⟩ :=
      ih (idx + 1) (offset + pyTrunc ((d : ℚ) * ((chunk.length : ℚ) / (L : ℚ))))
    simp only [emitChunks, List.map_cons, List.sum_cons, List.length_cons] at *
    have hsplit : (d : ℚ) * (((chunk.length + (rest.map List.length).sum : ℕ) : ℚ)) / (L : ℚ) =
        (d : ℚ) * ((chunk.length : ℚ) / (L : ℚ)) +
        (d : ℚ) * (((rest.map List.length).sum : ℕ) : ℚ) / (L : ℚ) := by
      push_cast
      ring
    rw [hsplit]
    have hcast : ((((offset + pyTrunc ((d : ℚ) * ((chunk.length : ℚ) / (L : ℚ))) - offset) +
        ((emitChunks (idx + 1)
          (offset + pyTrunc ((d : ℚ) * ((chunk.length : ℚ) / (L : ℚ)))) d L rest).map
          (fun e => e.end_ms - e.start_ms)).sum : ℤ) : ℚ)) =
        ((pyTrunc ((d : ℚ) * ((chunk.length : ℚ) / (L : ℚ))) : ℤ) : ℚ) +
        ((((emitChunks (idx + 1)
          (offset + pyTrunc ((d : ℚ) * ((chunk.length : ℚ) / (L : ℚ)))) d L rest).map
          (fun e => e.end_ms - e.start_ms)).sum : ℤ) : ℚ) := by
      push_cast
      ring
    have hlen1 : ((rest.length + 1 : ℕ) : ℚ) = (rest.length : ℚ) + 1 := by
      push_cast
      ring
    constructor
    · rw [hcast, hlen1]
      linarith
    · rw [hcast]
      linarith

/-- C3 witness: the amended bound evaluated at the concrete 38-character
cue split into 3 chunks with duration 3000 ms. -/
theorem claim_C3_witness :
    ((0 : ℤ) ≤ 3000 ∧ (0 : ℕ) < 38) ∧
    ((3000 : ℚ) * ((([chars "hello, world:", chars "this is a test",
          chars "sentence!"].map List.length).sum : ℕ) : ℚ) / ((38 : ℕ) : ℚ) -
        ([chars "hello, world:", chars "this is a test",
          chars "sentence!"] : List (List Char)).length ≤
      ((((emitChunks 2 400 3000 38 [chars "hello, world:", chars "this is a test",
          chars "sentence!"]).map (fun e => e.end_ms - e.start_ms)).sum : ℤ) : ℚ) ∧
      ((((emitChunks 2 400 3000 38 [chars "hello, world:", chars "this is a test",
          chars "sentence!"]).map (fun e => e.end_ms - e.start_ms)).sum : ℤ) : ℚ) ≤
        (3000 : ℚ) * ((([chars "hello, world:", chars "this is a test",
          chars "sentence!"].map List.length).sum : ℕ) : ℚ) / ((38 : ℕ) : ℚ)) :=
  ⟨⟨by norm_num, by norm_num⟩,
    claim_C3 3000 38 2 400
      [chars "hello, world:", chars "this is a test", chars "sentence!"]
      (by norm_num) (by norm_num)⟩

/-! ## Deduplicator: order preservation -/

theorem filterDuplicatesAux_sublist (C : UrlChecks) (threshold : ℚ)
    (seenUrls seenTitles : List (List Char)) :
    ∀ (entries : List RSSEntry) (batchUrls batchTitles : List (List Char))
      (res : List RSSEntry),
      filterDuplicatesAux C threshold seenUrls seenTitles entries
        batchUrls batchTitles = some res →
      res.Sublist entries := by
  intro entries
  induction entries with
  | nil =>
    intro batchUrls batchTitles res h
    simp only [filterDuplicatesAux, Option.some.injEq] at h
    subst h
    exact List.Sublist.refl []
  | cons e rest ih =>
    intro batchUrls batchTitles res h
    rw [filterDuplicatesAux] at h
    cases hnu : normalizeUrl C e.url with
    | none => rw [hnu] at h; simp at h
    | some nu =>
      rw [hnu] at h
      simp only at h
      split at h
      · exact List.Sublist.cons e (ih _ _ res h)
      · split at h
        · exact List.Sublist.cons e (ih _ _ res h)
        · simp only [Option.map_eq_some'] at h
          rcases h with ⟨res', hres', hres⟩
          subst hres
          exact List.Sublist.cons₂ e (ih _ _ res' hres')

/-- C8: the deduplicator's filter is order-preserving — whenever the batch
loop returns (no `ValueError` escapes URL canonicalization), the surviving
items form a sublist of the input batch, in the same relative order, for
every history window and threshold. -/
theorem claim_C8 (C : UrlChecks) (threshold : ℚ)
    (seenUrls seenTitles : List (List Char)) (entries res : List RSSEntry)
    (h : filterDuplicates C threshold seenUrls seenTitles entries = some res) :
    res.Sublist entries :=
  filterDuplicatesAux_sublist C threshold seenUrls seenTitles entries [] [] res h

/-- C8 witness: a concrete two-item batch in which the second item is an
exact-URL duplicate of the first; the survivor list is a sublist of the
batch. -/
theorem claim_C8_witness :
    filterDuplicates defaultChecks (1/2) [] []
        [{ title := chars "a", url := chars "http://x.com/a?utm_source=y#f",
           source_name := [], source_key := [], category := [] },
         { title := chars "b", url := chars "https://x.com/a/",
           source_name := [], source_key := [], category := [] }] =
      some [{ title := chars "a", url := chars "http://x.com/a?utm_source=y#f",
              source_name := [], source_key := [], category := [] }] ∧
    List.Sublist
      ([{ title := chars "a", url := chars "http://x.com/a?utm_source=y#f",
          source_name := [], source_key := [], category := [] }] : List RSSEntry)
      ([{ title := chars "a", url := chars "http://x.com/a?utm_source=y#f",
          source_name := [], source_key := [], category := [] },
        { title := chars "b", url := chars "https://x.com/a/",
          source_name := [], source_key := [], category := [] }] : List RSSEntry) := by
  have hfd : filterDuplicates defaultChecks (1/2) [] []
      [{ title := chars "a", url := chars "http://x.com/a?utm_source=y#f",
         source_name := [], source_key := [], category := [] },
       { title := chars "b", url := chars "https://x.com/a/",
         source_name := [], source_key := [], category := [] }] =
      some [{ title := chars "a", url := chars "http://x.com/a?utm_source=y#f",
              source_name := [], source_key := [], category := [] }] := by
    decide
  exact ⟨hfd, claim_C8 defaultChecks (1/2) [] [] _ _ hfd⟩

/-! ## Helper lemmas: URL canonicalization -/

theorem rstripSlash_getLast {l : List Char} {c : Char}
    (h : (rstripSlash l).getLast? = some c) : (c == '/') = false := by
  unfold rstripSlash at h
  rw [List.getLast?_reverse] at h
  have := dropWhile_head?_not (p := fun x => x == '/') h
  simpa using this

theorem rstripSlash_subset {l : List Char} : ∀ c ∈ rstripSlash l, c ∈ l := by
  intro c hc
  unfold rstripSlash at hc
  rw [List.mem_reverse] at hc
  have := (List.dropWhile_sublist (l := l.reverse) (fun a => a == '/')).subset hc
  rwa [List.mem_reverse] at this

theorem dropWhile_eq_self_of_head {p : Char → Bool} {l : List Char} {c : Char}
    (hh : l.head? = some c) (hc : p c = false) : l.dropWhile p = l := by
  cases l with
  | nil => simp at hh
  | cons a t =>
    simp only [List.head?_cons, Option.some.injEq] at hh
    subst hh
    exact List.dropWhile_cons_of_neg (by simp [hc])

/-- `rstrip("/")` distributes over an append whose left part does not end
in a slash. -/
theorem rstripSlash_append {a b : List Char} {c : Char}
    (ha : a.getLast? = some c) (hc : (c == '/') = false) :
    rstripSlash (a ++ b) = a ++ rstripSlash b := by
  unfold rstripSlash
  rw [List.reverse_append, List.dropWhile_append]
  have hrev : a.reverse.dropWhile (fun x => x == '/') = a.reverse :=
    dropWhile_eq_self_of_head (by rwa [List.head?_reverse]) hc
  split
  · rename_i hemp
    rw [List.isEmpty_iff] at hemp
    rw [hemp, hrev]
    simp
  · simp [List.reverse_append]

theorem rstripSlash_idem (l : List Char) :
    rstripSlash (rstripSlash l) = rstripSlash l := by
  cases hl : (rstripSlash l).getLast? with
  | none =>
    rw [List.getLast?_eq_none_iff] at hl
    rw [hl]
    rfl
  | some c =>
    have hc := rstripSlash_getLast hl
    rcases List.eq_nil_or_concat (rstripSlash l) with hnil | ⟨a, x, hax⟩
    · rw [hnil]; rfl
    · rw [List.concat_eq_append] at hax
      have hx : x = c := by
        rw [hax, List.getLast?_concat] at hl
        simpa using hl
      subst hx
      have h2 := rstripSlash_append (a := a ++ [x]) (b := ([] : List Char))
        (by simp) hc
      have h3 : rstripSlash ([] : List Char) = [] := rfl
      rw [h3, List.append_nil] at h2
      rw [hax, h2]

theorem mem_takeWhile_sat {p : Char → Bool} {l : List Char} {c : Char}
    (h : c ∈ l.takeWhile p) : p c = true := by
  induction l with
  | nil => simp at h
  | cons a t ih =>
    by_cases hp : p a
    · rw [List.takeWhile_cons_of_pos hp] at h
      rcases List.mem_cons.1 h with rfl | h'
      · exact hp
      · exact ih h'
    · rw [List.takeWhile_cons_of_neg hp] at h
      simp at h

theorem mem_takeWhile_mem {p : Char → Bool} {l : List Char} {c : Char}
    (h : c ∈ l.takeWhile p) : c ∈ l :=
  (List.takeWhile_sublist p).subset h

theorem splitFirst_fst_not_mem (c : Char) (l : List Char) :
    c ∉ (splitFirst c l).1 := by
  intro h
  have := mem_takeWhile_sat h
  simp at this

theorem splitFirst_fst_subset (c : Char) (l : List Char) :
    ∀ x ∈ (splitFirst c l).1, x ∈ l :=
  fun _ hx => mem_takeWhile_mem hx

/-- The fragment- and query-splitting tail of `urlsplit`: the resulting
path is a subset of the input slice and contains neither `#` nor `?`. -/
theorem splitTail_spec {C : UrlChecks} {scheme netloc u2 : List Char}
    {sp : SplitParts} (h : splitTail C scheme netloc u2 = some sp) :
    sp.scheme = scheme ∧ sp.netloc = netloc ∧
      (∀ c ∈ sp.path, c ∈ u2) ∧ ('#' ∉ sp.path) ∧ ('?' ∉ sp.path) := by
  simp only [splitTail] at h
  by_cases hnet : netloc ≠ [] ∧ allAscii netloc = false ∧ C.nfkcNetlocOk netloc = false
  · rw [if_pos hnet] at h
    exact absurd h (by simp)
  · rw [if_neg hnet] at h
    rw [Option.some.injEq] at h
    subst h
    simp only
    set f1 : List Char := (if '#' ∈ u2 then splitFirst '#' u2 else (u2, [])).1 with hf1
    have hf1sub : ∀ x ∈ f1, x ∈ u2 := by
      rw [hf1]
      split
      · exact splitFirst_fst_subset '#' u2
      · exact fun x hx => hx
    have hf1no : '#' ∉ f1 := by
      rw [hf1]
      split
      · exact splitFirst_fst_not_mem '#' u2
      · assumption
    set p1 : List Char := (if '?' ∈ f1 then splitFirst '?' f1 else (f1, [])).1 with hp1
    have hp1sub : ∀ x ∈ p1, x ∈ f1 := by
      rw [hp1]
      split
      · exact splitFirst_fst_subset '?' f1
      · exact fun x hx => hx
    have hp1no : '?' ∉ p1 := by
      rw [hp1]
      split
      · exact splitFirst_fst_not_mem '?' f1
      · assumption
    exact ⟨trivial, trivial, fun c hc => hf1sub c (hp1sub c hc),
      fun hc => hf1no (hp1sub _ hc), hp1no⟩

/-- The netloc of a successful `urlsplit` contains no `/`, `?` or `#`, and
the path contains no `?` or `#`. -/
theorem urlsplitM_spec {C : UrlChecks} {u : List Char} {sp : SplitParts}
    (h : urlsplitM C u = some sp) :
    (∀ c ∈ sp.netloc, (c == '/' || c == '?' || c == '#') = false) ∧
      ('#' ∉ sp.path) ∧ ('?' ∉ sp.path) := by
  simp only [urlsplitM] at h
  split at h
  · split at h
    · exact absurd h (by simp)
    · split at h
      · exact absurd h (by simp)
      · obtain ⟨hsc, hnl, hsub, h7, h5⟩ := splitTail_spec h
        refine ⟨?_, h7, h5⟩
        intro c hc
        rw [hnl] at hc
        have := mem_takeWhile_sat hc
        simpa using this
  · obtain ⟨hsc, hnl, hsub, h7, h5⟩ := splitTail_spec h
    refine ⟨?_, h7, h5⟩
    intro c hc
    rw [hnl] at hc
    simp at hc

theorem pySplitparams_fst_subset (u : List Char) :
    ∀ x ∈ (pySplitparams u).1, x ∈ u := by
  intro x hx
  unfold pySplitparams at hx
  split at hx
  · split at hx
    · split at hx
      · exact List.take_subset _ u hx
      · exact hx
    · exact hx
  · split at hx
    · exact List.take_subset _ u hx
    · exact hx

theorem pySplitparams_snd_subset (u : List Char) :
    ∀ x ∈ (pySplitparams u).2, x ∈ u := by
  intro x hx
  unfold pySplitparams at hx
  split at hx
  · split at hx
    · split at hx
      · exact List.drop_subset _ u hx
      · simp at hx
    · simp at hx
  · split at hx
    · exact List.drop_subset _ u hx
    · simp at hx

/-- Character-level facts about a successful `urlparse`: the netloc has no
`/`, `?` or `#`; the path and params have no `?` or `#`. -/
theorem urlparseM_spec {C : UrlChecks} {u : List Char} {p : ParseResult}
    (h : urlparseM C u = some p) :
    (∀ c ∈ p.netloc, (c == '/' || c == '?' || c == '#') = false) ∧
      ('#' ∉ p.path) ∧ ('?' ∉ p.path) ∧ ('#' ∉ p.params) ∧ ('?' ∉ p.params) := by
  rw [urlparseM, Option.map_eq_some'] at h
  rcases h with ⟨sp, hsp, hp⟩
  obtain ⟨hn, h7, h5⟩ := urlsplitM_spec hsp
  subst hp
  split
  · simp only
    refine ⟨hn, ?_, ?_, ?_, ?_⟩
    · exact fun hc => h7 (pySplitparams_fst_subset _ _ hc)
    · exact fun hc => h5 (pySplitparams_fst_subset _ _ hc)
    · exact fun hc => h7 (pySplitparams_snd_subset _ _ hc)
    · exact fun hc => h5 (pySplitparams_snd_subset _ _ hc)
  · simp only
    exact ⟨hn, h7, h5, by simp, by simp⟩

/-- Shape of the recombined canonical URL: `"https:"` followed by the
slash-stripped authority-and-path block, which contains no `?` and no
`#`. -/
theorem recombine_shape (p : ParseResult)
    (hn : ∀ c ∈ p.netloc, (c == '/' || c == '?' || c == '#') = false)
    (hp7 : '#' ∉ p.path) (hp5 : '?' ∉ p.path)
    (hq7 : '#' ∉ p.params) (hq5 : '?' ∉ p.params) :
    ∃ u1 : List Char, recombine p = chars "https:" ++ rstripSlash u1 ∧
      ('#' ∉ u1) ∧ ('?' ∉ u1) := by
  unfold recombine urlunparseM urlunsplitM
  simp only
  set url : List Char :=
    (if p.params ≠ [] then p.path ++ ';' :: p.params else p.path) with hurl
  have hurl7 : '#' ∉ url := by
    rw [hurl]
    split
    · intro hc
      rcases List.mem_append.1 hc with hc' | hc'
      · exact hp7 hc'
      · rcases List.mem_cons.1 hc' with hc'' | hc''
        · simp at hc''
        · exact hq7 hc''
    · exact hp7
  have hurl5 : '?' ∉ url := by
    rw [hurl]
    split
    · intro hc
      rcases List.mem_append.1 hc with hc' | hc'
      · exact hp5 hc'
      · rcases List.mem_cons.1 hc' with hc'' | hc''
        · simp at hc''
        · exact hq5 hc''
    · exact hp5
  set url1 : List Char :=
    (if p.netloc ≠ [] ∨ (chars "https" ≠ [] ∧ chars "https" ∈ usesNetlocList ∧
        url.take 2 ≠ ['/', '/']) then
      '/' :: '/' :: (p.netloc ++
        (if url ≠ [] ∧ url.head? ≠ some '/' then '/' :: url else url))
    else url) with hurl1
  have h17 : '#' ∉ url1 := by
    rw [hurl1]
    split
    · intro hc
      rcases List.mem_cons.1 hc with hc' | hc'
      · simp at hc'
      rcases List.mem_cons.1 hc' with hc'' | hc''
      · simp at hc''
      rcases List.mem_append.1 hc'' with hc3 | hc3
      · have := hn _ hc3
        simp at this
      · revert hc3
        split
        · intro hc3
          rcases List.mem_cons.1 hc3 with hc4 | hc4
          · simp at hc4
          · exact hurl7 hc4
        · exact hurl7
    · exact hurl7
  have h15 : '?' ∉ url1 := by
    rw [hurl1]
    split
    · intro hc
      rcases List.mem_cons.1 hc with hc' | hc'
      · simp at hc'
      rcases List.mem_cons.1 hc' with hc'' | hc''
      · simp at hc''
      rcases List.mem_append.1 hc'' with hc3 | hc3
      · have := hn _ hc3
        simp at this
      · revert hc3
        split
        · intro hc3
          rcases List.mem_cons.1 hc3 with hc4 | hc4
          · simp at hc4
          · exact hurl5 hc4
        · exact hurl5
    · exact hurl5
  refine ⟨url1, ?_, h17, h15⟩
  rw [if_neg (by simp [chars])]
  rw [if_neg (by simp [chars])]
  rw [if_pos (by simp [chars])]
  have hcat : chars "https" ++ ':' :: url1 = chars "https:" ++ url1 := rfl
  rw [hcat]
  exact rstripSlash_append (c := ':') (by decide) (by decide)

/-- C6 counterexample: `page=2` is not a tracking parameter, yet
canonicalization removes it: `_normalize_url` blanks the **entire** query
(`query=""`), so no query parameter, tracking or not, survives. -/
theorem claim_C6_counterexample :
    normalizeUrl defaultChecks (chars "http://example.com/a?page=2") =
        some (chars "https://example.com/a") ∧
      '?' ∉ chars "https://example.com/a" ∧
      chars "https://example.com/a" ≠ chars "https://example.com/a?page=2" :=
  ⟨by decide, by decide, by decide⟩

/-- C6 (amended): canonicalization maps any URL that parses to the same
URL with the scheme forced to `https` (the result begins with `"https:"`),
the fragment removed and the **whole query string** removed (neither `?`
nor `#` can occur in the result — non-tracking parameters are NOT
preserved, see the counterexample), and any trailing slashes trimmed (the
result does not end in `/`). -/
theorem claim_C6 (C : UrlChecks) (u r : List Char)
    (h : normalizeUrl C u = some r) :
    r.take 6 = chars "https:" ∧ ('?' ∉ r) ∧ ('#' ∉ r) ∧
      ∀ c, r.getLast? = some c → c ≠ '/' := by
  rw [normalizeUrl, Option.map_eq_some'] at h
  rcases h with ⟨p, hp, hr⟩
  obtain ⟨hn, h7, h5, hq7, hq5⟩ := urlparseM_spec hp
  obtain ⟨u1, hshape, h17, h15⟩ := recombine_shape p hn h7 h5 hq7 hq5
  subst hr
  rw [hshape]
  refine ⟨?_, ?_, ?_, ?_⟩
  · rw [show (6 : ℕ) = (chars "https:").length from rfl, List.take_left]
  · intro hc
    rcases List.mem_append.1 hc with hc' | hc'
    · revert hc'
      decide
    · exact h15 (rstripSlash_subset _ hc')
  · intro hc
    rcases List.mem_append.1 hc with hc' | hc'
    · revert hc'
      decide
    · exact h17 (rstripSlash_subset _ hc')
  · intro c hc hcslash
    subst hcslash
    cases hu1 : rstripSlash u1 with
    | nil =>
      rw [hu1, List.append_nil] at hc
      revert hc
      decide
    | cons a t =>
      rw [hu1] at hc
      rw [List.getLast?_append_of_ne_nil _ (by simp : a :: t ≠ [])] at hc
      rw [← hu1] at hc
      have := rstripSlash_getLast hc
      simp at this

/-! ## Helper lemmas: toward idempotence of `_normalize_url` -/

theorem pyFind_spec {c : Char} :
    ∀ {l : List Char} {i : ℕ}, pyFind c l = some i →
      ∃ h : i < l.length, l.get ⟨i, h⟩ = c := by
  intro l
  induction l with
  | nil => intro i h; simp [pyFind] at h
  | cons a t ih =>
    intro i h
    rw [pyFind] at h
    split at h
    · rename_i ha
      simp only [Option.some.injEq] at h
      subst h
      exact ⟨by simp, ha⟩
    · simp only [Option.map_eq_some'] at h
      rcases h with ⟨j, hj, hi⟩
      subst hi
      obtain ⟨hlt, hget⟩ := ih hj
      exact ⟨by simpa using Nat.succ_lt_succ hlt, by simpa using hget⟩

theorem pyFind_isSome {c : Char} :
    ∀ {l : List Char}, c ∈ l → (pyFind c l).isSome := by
  intro l
  induction l with
  | nil => intro h; simp at h
  | cons a t ih =>
    intro h
    rw [pyFind]
    split
    · simp
    · rename_i ha
      rcases List.mem_cons.1 h with rfl | h'
      · exact absurd rfl ha
      · rcases Option.isSome_iff_exists.1 (ih h') with ⟨j, hj⟩
        rw [hj]
        simp

theorem pyRFind_isSome {c : Char} {l : List Char} (h : c ∈ l) :
    (pyRFind c l).isSome := by
  unfold pyRFind
  rcases Option.isSome_iff_exists.1 (pyFind_isSome (List.mem_reverse.2 h)) with ⟨j, hj⟩
  rw [hj]
  simp

theorem pyFindFrom_spec {c : Char} {s : ℕ} {l : List Char} {i : ℕ}
    (h : pyFindFrom c s l = some i) :
    ∃ hlt : i < l.length, l.get ⟨i, hlt⟩ = c := by
  unfold pyFindFrom at h
  rw [Option.map_eq_some'] at h
  rcases h with ⟨j, hj, hi⟩
  subst hi
  obtain ⟨hlt, hget⟩ := pyFind_spec hj
  rw [List.get_drop'] at hget
  rw [List.length_drop] at hlt
  exact ⟨by omega, by simpa [Nat.add_comm] using hget⟩

theorem takeWhile_append_all {p : Char → Bool} {a b : List Char}
    (ha : ∀ c ∈ a, p c = true) :
    (a ++ b).takeWhile p = a ++ b.takeWhile p := by
  induction a with
  | nil => simp
  | cons x t ih =>
    have hx : p x = true := ha x (List.mem_cons_self _ _)
    rw [List.cons_append, List.takeWhile_cons_of_pos hx,
      ih (fun c hc => ha c (List.mem_cons_of_mem _ hc))]
    rfl

theorem dropWhile_append_all {p : Char → Bool} {a b : List Char}
    (ha : ∀ c ∈ a, p c = true) :
    (a ++ b).dropWhile p = b.dropWhile p := by
  induction a with
  | nil => simp
  | cons x t ih =>
    have hx : p x = true := ha x (List.mem_cons_self _ _)
    rw [List.cons_append, List.dropWhile_cons_of_pos hx,
      ih (fun c hc => ha c (List.mem_cons_of_mem _ hc))]

theorem rstripSlash_head {l : List Char} {c : Char}
    (h : (rstripSlash l).head? = some c) : l.head? = some c := by
  unfold rstripSlash at h
  rw [List.head?_reverse] at h
  have hne : l.reverse.dropWhile (fun x => x == '/') ≠ [] := by
    intro hnil
    rw [hnil] at h
    simp at h
  rw [getLast?_dropWhile_ne hne, List.getLast?_reverse] at h
  exact h

/-- Key `_splitparams` round-trip: unless the path ends in the one
semicolon that would be split off as an empty `params` (and then silently
dropped by `urlunparse`), splitting the params off and re-joining them is
the identity. -/
theorem paramsRoundtrip {q : List Char} (hlast : q.getLast? ≠ some ';') :
    (if (pySplitparams q).2 ≠ [] then
      (pySplitparams q).1 ++ ';' :: (pySplitparams q).2
    else (pySplitparams q).1) = q := by
  have main : ∀ i : ℕ, (hi : i < q.length) → q.get ⟨i, hi⟩ = ';' →
      (if q.drop (i + 1) ≠ [] then q.take i ++ ';' :: q.drop (i + 1)
       else q.take i) = q := by
    intro i hi hget
    have hsplit : q.take i ++ ';' :: q.drop (i + 1) = q := by
      conv_rhs => rw [← List.take_append_drop i q]
      congr 1
      rw [List.drop_eq_get_cons hi, hget]
    by_cases hdrop : q.drop (i + 1) = []
    · exfalso
      have hii : i + 1 ≥ q.length := by
        by_contra hcon
        push_neg at hcon
        rw [List.drop_eq_nil_iff_le] at hdrop
        omega
      have hieq : q.length - 1 = i := by omega
      have hlast2 : q.getLast? = some ';' := by
        rw [List.getLast?_eq_getElem?, hieq, List.getElem?_eq_getElem hi]
        exact congrArg some (by simpa using hget)
      exact hlast hlast2
    · rw [if_pos hdrop]
      exact hsplit
  unfold pySplitparams
  split
  · rename_i hslash
    cases hrf : pyRFind '/' q with
    | none =>
      exfalso
      have := pyRFind_isSome hslash
      rw [hrf] at this
      simp at this
    | some j =>
      cases hff : pyFindFrom ';' j q with
      | none =>
        simp only [hff]
        simp
      | some i =>
        obtain ⟨hlt, hget⟩ := pyFindFrom_spec hff
        simp only [hff]
        exact main i hlt hget
  · cases hf : pyFind ';' q with
    | none =>
      simp only [hf]
      simp
    | some i =>
      obtain ⟨hlt, hget⟩ := pyFind_spec hf
      simp only [hf]
      exact main i hlt hget

theorem splitTail_netlocOk {C : UrlChecks} {scheme netloc u2 : List Char}
    {sp : SplitParts} (h : splitTail C scheme netloc u2 = some sp) :
    ¬(netloc ≠ [] ∧ allAscii netloc = false ∧ C.nfkcNetlocOk netloc = false) := by
  simp only [splitTail] at h
  intro hc
  rw [if_pos hc] at h
  exact absurd h (by simp)

theorem schemeSplit_snd_subset (u : List Char) :
    ∀ x ∈ (schemeSplit u).2, x ∈ u := by
  intro x hx
  unfold schemeSplit at hx
  split at hx
  · split at hx
    · exact List.drop_subset _ u hx
    · exact hx
  · exact hx

/-- The netloc and path of a successful `urlsplit` contain none of the
removed unsafe bytes (tab, CR, LF), and the netloc passed all of the
bracket and NFKC validation checks. -/
theorem urlsplitM_extra {C : UrlChecks} {u : List Char} {sp : SplitParts}
    (h : urlsplitM C u = some sp) :
    (∀ c ∈ sp.netloc, (c == '\t' || c == '\r' || c == '\n') = false) ∧
    (∀ c ∈ sp.path, (c == '\t' || c == '\r' || c == '\n') = false) ∧
    (('[' ∈ sp.netloc) ↔ (']' ∈ sp.netloc)) ∧
    ('[' ∈ sp.netloc → ']' ∈ sp.netloc →
      C.bracketedHostOk (bracketedHost sp.netloc) = true) ∧
    (sp.netloc ≠ [] → allAscii sp.netloc = false →
      C.nfkcNetlocOk sp.netloc = true) := by
  have hclean0 : ∀ c ∈ removeUnsafe (lstripC0 u),
      (c == '\t' || c == '\r' || c == '\n') = false := by
    intro c hc
    have := List.of_mem_filter hc
    simpa using this
  simp only [urlsplitM] at h
  split at h
  · rename_i htake
    split at h
    · exact absurd h (by simp)
    · rename_i hbr
      split at h
      · exact absurd h (by simp)
      · rename_i hbc
        obtain ⟨hsc, hnl, hsub, h7, h5⟩ := splitTail_spec h
        have hnok := splitTail_netlocOk h
        have hnsub : ∀ c ∈ sp.netloc, c ∈ removeUnsafe (lstripC0 u) := by
          intro c hc
          rw [hnl] at hc
          exact schemeSplit_snd_subset _ _
            (List.drop_subset _ _ (mem_takeWhile_mem hc))
        have hpsub : ∀ c ∈ sp.path, c ∈ removeUnsafe (lstripC0 u) := by
          intro c hc
          have := hsub c hc
          exact schemeSplit_snd_subset _ _
            (List.drop_subset _ _
              ((List.dropWhile_sublist _).subset this))
        push_neg at hbr
        refine ⟨fun c hc => hclean0 c (hnsub c hc),
          fun c hc => hclean0 c (hpsub c hc), ?_, ?_, ?_⟩
        · rw [hnl]
          exact hbr
        · intro hob hcb
          rw [hnl] at hob hcb ⊢
          by_contra hfalse
          exact hbc ⟨hob, hcb, by simpa using hfalse⟩
        · intro hne hascii
          rw [hnl] at hne hascii ⊢
          by_contra hfalse
          exact hnok ⟨hne, hascii, by simpa using hfalse⟩
  · obtain ⟨hsc, hnl, hsub, h7, h5⟩ := splitTail_spec h
    have hpsub : ∀ c ∈ sp.path, c ∈ removeUnsafe (lstripC0 u) := by
      intro c hc
      exact schemeSplit_snd_subset _ _ (hsub c hc)
    refine ⟨?_, fun c hc => hclean0 c (hpsub c hc), ?_, ?_, ?_⟩
    · intro c hc
      rw [hnl] at hc
      simp at hc
    · rw [hnl]
      simp
    · intro hob
      rw [hnl] at hob
      simp at hob
    · intro hne
      rw [hnl] at hne
      simp at hne

/-- Facts about a successful `urlparse` needed for the idempotence
argument: cleanliness of all reassembled pieces and that the netloc passed
all validation checks. -/
theorem urlparseM_extra {C : UrlChecks} {u : List Char} {p : ParseResult}
    (h : urlparseM C u = some p) :
    (∀ c ∈ p.netloc, (c == '\t' || c == '\r' || c == '\n') = false) ∧
    (∀ c ∈ p.path, (c == '\t' || c == '\r' || c == '\n') = false) ∧
    (∀ c ∈ p.params, (c == '\t' || c == '\r' || c == '\n') = false) ∧
    (('[' ∈ p.netloc) ↔ (']' ∈ p.netloc)) ∧
    ('[' ∈ p.netloc → ']' ∈ p.netloc →
      C.bracketedHostOk (bracketedHost p.netloc) = true) ∧
    (p.netloc ≠ [] → allAscii p.netloc = false →
      C.nfkcNetlocOk p.netloc = true) := by
  rw [urlparseM, Option.map_eq_some'] at h
  rcases h with ⟨sp, hsp, hp⟩
  obtain ⟨hcn, hcp, hbr, hbc, hnf⟩ := urlsplitM_extra hsp
  subst hp
  split
  · simp only
    exact ⟨hcn, fun c hc => hcp c (pySplitparams_fst_subset _ c hc),
      fun c hc => hcp c (pySplitparams_snd_subset _ c hc), hbr, hbc, hnf⟩
  · simp only
    exact ⟨hcn, hcp, by simp, hbr, hbc, hnf⟩

/-- With empty query and fragment, a non-empty netloc, and the canonical
scheme, `urlunsplit` produces `https://<netloc><url'>` with a slash
prefixed to a non-slash-initial path. -/
theorem urlunsplitM_netloc {netloc url : List Char} (hne : netloc ≠ []) :
    urlunsplitM (chars "https") netloc url [] [] =
      chars "https:" ++ ('/' :: '/' :: (netloc ++
        (if url ≠ [] ∧ url.head? ≠ some '/' then '/' :: url else url))) := by
  simp only [urlunsplitM]
  rw [if_pos (Or.inl hne)]
  rw [if_neg (by simp : ¬(([] : List Char) ≠ []))]
  rw [if_neg (by simp : ¬(([] : List Char) ≠ []))]
  rw [if_pos (by decide : chars "https" ≠ [])]
  rfl

/-- The canonical form of a URL with a non-empty authority:
`https://<netloc><q>` where `q` is the slash-stripped path block (empty or
beginning with `/`). -/
theorem recombine_netloc_shape (p : ParseResult) (hne : p.netloc ≠ [])
    (hn : ∀ c ∈ p.netloc, (c == '/' || c == '?' || c == '#') = false) :
    ∃ q : List Char,
      recombine p = chars "https:" ++ ('/' :: '/' :: (p.netloc ++ q)) ∧
      (q = [] ∨ q.head? = some '/') ∧
      rstripSlash q = q ∧
      (∀ c ∈ q, c ∈ p.path ∨ c = ';' ∨ c ∈ p.params ∨ c = '/') := by
  obtain ⟨cn, hcn⟩ : ∃ cn, p.netloc.getLast? = some cn := by
    cases hg : p.netloc.getLast? with
    | none => rw [List.getLast?_eq_none_iff] at hg; exact absurd hg hne
    | some cn => exact ⟨cn, rfl⟩
  have hcn_mem : cn ∈ p.netloc := by
    rcases List.mem_getLast?_eq_getLast (show cn ∈ p.netloc.getLast? from hcn)
      with ⟨hh, hcg⟩
    rw [hcg]
    exact List.getLast_mem hh
  have hcn_slash : (cn == '/') = false := by
    have := hn cn hcn_mem
    simp only [Bool.or_eq_false_iff] at this
    exact this.1.1
  set url : List Char :=
    (if p.params ≠ [] then p.path ++ ';' :: p.params else p.path) with hurl
  set url' : List Char :=
    (if url ≠ [] ∧ url.head? ≠ some '/' then '/' :: url else url) with hurl'
  have hurl_mem : ∀ c ∈ url, c ∈ p.path ∨ c = ';' ∨ c ∈ p.params ∨ c = '/' := by
    intro c hc
    rw [hurl] at hc
    split at hc
    · rcases List.mem_append.1 hc with hc' | hc'
      · exact Or.inl hc'
      · rcases List.mem_cons.1 hc' with hc'' | hc''
        · exact Or.inr (Or.inl hc'')
        · exact Or.inr (Or.inr (Or.inl hc''))
    · exact Or.inl hc
  have hurl'_mem : ∀ c ∈ url', c ∈ p.path ∨ c = ';' ∨ c ∈ p.params ∨ c = '/' := by
    intro c hc
    rw [hurl'] at hc
    split at hc
    · rcases List.mem_cons.1 hc with hc' | hc'
      · exact Or.inr (Or.inr (Or.inr hc'))
      · exact hurl_mem c hc'
    · exact hurl_mem c hc
  have hurl'_head : url' = [] ∨ url'.head? = some '/' := by
    rw [hurl']
    split
    · right; rfl
    · rename_i hcond
      push_neg at hcond
      by_cases hu : url = []
      · left; exact hu
      · right; exact hcond hu
  have hre : recombine p =
      rstripSlash ((chars "https:" ++ ['/', '/'] ++ p.netloc) ++ url') := by
    unfold recombine urlunparseM
    simp only
    rw [← hurl]
    rw [urlunsplitM_netloc hne, ← hurl']
    congr 1
  have hglast : (chars "https:" ++ ['/', '/'] ++ p.netloc).getLast? = some cn := by
    rw [List.append_assoc, List.getLast?_append_of_ne_nil _ (by simp : ['/', '/'] ++ p.netloc ≠ []),
      List.getLast?_append_of_ne_nil _ hne]
    exact hcn
  rw [rstripSlash_append hglast hcn_slash] at hre
  refine ⟨rstripSlash url', ?_, ?_, rstripSlash_idem url', ?_⟩
  · rw [hre]
    simp [List.append_assoc]
  · cases hq : rstripSlash url' with
    | nil => exact Or.inl rfl
    | cons a t =>
      right
      have hhead : url'.head? = some a := rstripSlash_head (by rw [hq]; rfl)
      rcases hurl'_head with hu | hu
      · rw [hu] at hhead; simp at hhead
      · rw [hu] at hhead
        simp only [Option.some.injEq] at hhead
        rw [← hhead]
        rfl
  · intro c hc
    exact hurl'_mem c (rstripSlash_subset _ hc)

/-- Core of the idempotence argument: a string of the canonical shape
`https://<netloc><q>` — netloc non-empty, free of `/?#`, passing all
validation checks; `q` empty or slash-initial, free of `?#`, already
slash-stripped, and not ending in `;` — re-parses to exactly these
components and recombines to itself. -/
theorem normalizeUrl_fixed {C : UrlChecks} {n q : List Char}
    (hn_ne : n ≠ [])
    (hn : ∀ c ∈ n, (c == '/' || c == '?' || c == '#') = false)
    (hnb : ('[' ∈ n) ↔ (']' ∈ n))
    (hbr : '[' ∈ n → ']' ∈ n → C.bracketedHostOk (bracketedHost n) = true)
    (hnf : n ≠ [] → allAscii n = false → C.nfkcNetlocOk n = true)
    (hclean : ∀ c ∈ n ++ q, (c == '\t' || c == '\r' || c == '\n') = false)
    (hq_head : q = [] ∨ q.head? = some '/')
    (hq7 : '#' ∉ q) (hq5 : '?' ∉ q)
    (hq_strip : rstripSlash q = q)
    (hq_last : q.getLast? ≠ some ';') :
    normalizeUrl C (chars "https:" ++ ('/' :: '/' :: (n ++ q))) =
      some (chars "https:" ++ ('/' :: '/' :: (n ++ q))) := by
  set r : List Char := chars "https:" ++ ('/' :: '/' :: (n ++ q)) with hr
  -- netloc's last character, for the rstrip distribution
  obtain ⟨cn, hcn⟩ : ∃ cn, n.getLast? = some cn := by
    cases hg : n.getLast? with
    | none => rw [List.getLast?_eq_none_iff] at hg; exact absurd hg hn_ne
    | some cn => exact ⟨cn, rfl⟩
  have hcn_mem : cn ∈ n := by
    rcases List.mem_getLast?_eq_getLast (show cn ∈ n.getLast? from hcn)
      with ⟨hh, hcg⟩
    rw [hcg]
    exact List.getLast_mem hh
  have hcn_slash : (cn == '/') = false := by
    have := hn cn hcn_mem
    simp only [Bool.or_eq_false_iff] at this
    exact this.1.1
  have hglast : (chars "https:" ++ ['/', '/'] ++ n).getLast? = some cn := by
    rw [List.append_assoc,
      List.getLast?_append_of_ne_nil _ (by simp : ['/', '/'] ++ n ≠ []),
      List.getLast?_append_of_ne_nil _ hn_ne]
    exact hcn
  -- step 1: the lstrip and unsafe-byte filter leave r unchanged
  have hu0 : removeUnsafe (lstripC0 r) = r := by
    have hlstrip : lstripC0 r = r := by
      unfold lstripC0
      exact dropWhile_eq_self_of_head (show r.head? = some 'h' from rfl) (by decide)
    rw [hlstrip]
    unfold removeUnsafe
    rw [List.filter_eq_self]
    intro c hc
    rw [hr] at hc
    rcases List.mem_append.1 hc with h | h
    · have hcst : ∀ x ∈ chars "https:", (!(x == '\t' || x == '\r' || x == '\n')) = true := by
        decide
      exact hcst c h
    · rcases List.mem_cons.1 h with h' | h'
      · subst h'; decide
      rcases List.mem_cons.1 h' with h'' | h''
      · subst h''; decide
      · have := hclean c h''
        simp [this]
  -- step 2: the scheme splits off as exactly "https"
  have hfind : pyFind ':' r = some 5 := by
    show pyFind ':' ('h' :: 't' :: 't' :: 'p' :: 's' :: ':' :: ('/' :: '/' :: (n ++ q))) = some 5
    simp [pyFind]
  have hss : schemeSplit r = (chars "https", '/' :: '/' :: (n ++ q)) := by
    unfold schemeSplit
    rw [hfind]
    have hcond : 0 < 5 ∧
        (match r.head? with | some c0 => c0.isAlpha | none => false) = true ∧
        ((r.take 5).all isSchemeChar) = true := by
      refine ⟨by norm_num, ?_, ?_⟩
      · show ('h'.isAlpha) = true
        decide
      · rw [show r.take 5 = chars "https" from rfl]
        decide
    show (if 0 < 5 ∧
        (match r.head? with | some c0 => c0.isAlpha | none => false) = true ∧
        ((r.take 5).all isSchemeChar) = true then
        ((r.take 5).map Char.toLower, r.drop (5 + 1)) else ([], r)) =
      (chars "https", '/' :: '/' :: (n ++ q))
    rw [if_pos hcond]
    rfl
  -- step 3: the netloc and path split back into n and q
  have hpred : ∀ c ∈ n, (!(c == '/' || c == '?' || c == '#')) = true := by
    intro c hc
    simp [hn c hc]
  have hsn : splitNetloc (n ++ q) = (n, q) := by
    unfold splitNetloc
    rw [takeWhile_append_all hpred, dropWhile_append_all hpred]
    rcases hq_head with hq0 | hq0
    · subst hq0; simp
    · cases q with
      | nil => simp
      | cons a t =>
        simp only [List.head?_cons, Option.some.injEq] at hq0
        subst hq0
        rw [List.takeWhile_cons_of_neg (by decide), List.dropWhile_cons_of_neg (by decide)]
        simp
  have hst : splitTail C (chars "https") n q = some ⟨chars "https", n, q, [], []⟩ := by
    simp only [splitTail]
    rw [if_neg hq7, if_neg (show ¬('?' ∈ (q, ([] : List Char)).1) from hq5)]
    rw [if_neg (by
      rintro ⟨h1, h2, h3⟩
      rw [hnf h1 h2] at h3
      exact Bool.true_eq_false.mp h3)]
  have hsplit : urlsplitM C r = some ⟨chars "https", n, q, [], []⟩ := by
    simp only [urlsplitM]
    rw [hu0, hss]
    rw [if_pos (show ((chars "https", '/' :: '/' :: (n ++ q)).2.take 2) = ['/', '/'] from rfl)]
    rw [show (chars "https", '/' :: '/' :: (n ++ q)).2.drop 2 = n ++ q from rfl, hsn]
    rw [if_neg (not_not_intro (show ('[' ∈ (n, q).1) ↔ (']' ∈ (n, q).1) from hnb))]
    rw [if_neg (by
      rintro ⟨h1, h2, h3⟩
      rw [hbr h1 h2] at h3
      exact Bool.true_eq_false.mp h3)]
    exact hst
  -- step 4: recombination reproduces r, whatever way the params split went
  have hq_url : (if q ≠ [] ∧ q.head? ≠ some '/' then '/' :: q else q) = q := by
    rcases hq_head with hq0 | hq0
    · subst hq0; simp
    · rw [if_neg (by rw [hq0]; simp)]
  have hrec : ∀ path params : List Char,
      (if params ≠ [] then path ++ ';' :: params else path) = q →
      recombine ⟨chars "https", n, path, params, [], []⟩ = r := by
    intro path params hrejoin
    show rstripSlash (urlunsplitM (chars "https") n
      (if params ≠ [] then path ++ ';' :: params else path) [] []) = r
    rw [hrejoin, urlunsplitM_netloc hn_ne, hq_url]
    have hshape : chars "https:" ++ ('/' :: '/' :: (n ++ q)) =
        (chars "https:" ++ ['/', '/'] ++ n) ++ q := by
      simp
    rw [hshape, rstripSlash_append hglast hcn_slash, hq_strip, hr, hshape]
  -- conclusion
  unfold normalizeUrl urlparseM
  rw [hsplit]
  simp only [Option.map_some']
  by_cases hsemi : ';' ∈ q
  · rw [if_pos (show chars "https" ∈ usesParamsList ∧ ';' ∈ q from ⟨by decide, hsemi⟩)]
    exact congrArg some (hrec (pySplitparams q).1 (pySplitparams q).2 (paramsRoundtrip hq_last))
  · rw [if_neg (show ¬(chars "https" ∈ usesParamsList ∧ ';' ∈ q) from fun h => hsemi h.2)]
    exact congrArg some (hrec q [] (by simp))

/-! ## Helper lemmas: idempotence of `_normalize_title` -/

theorem removeDelimFuel_not_mem {op cl : Char} :
    ∀ (fuel : ℕ) (l : List Char), op ∉ l → removeDelimFuel op cl fuel l = l := by
  intro fuel
  induction fuel with
  | zero => intro l _; rfl
  | succ f ih =>
    intro l hop
    cases l with
    | nil => rfl
    | cons c rest =>
      have hc : ¬(c = op) := by
        intro h
        exact hop (by rw [h]; exact List.mem_cons_self _ _)
      simp only [removeDelimFuel]
      rw [if_neg hc, ih rest (fun h => hop (List.mem_cons_of_mem _ h))]

theorem removeDelim_not_mem {op cl : Char} {l : List Char} (hop : op ∉ l) :
    removeDelim op cl l = l :=
  removeDelimFuel_not_mem l.length l hop

theorem collapseWsAux_mem :
    ∀ (b : Bool) (l : List Char) (c : Char), c ∈ collapseWsAux b l →
      c = ' ' ∨ (pyIsSpace c = false ∧ c ∈ l) := by
  intro b l
  induction l generalizing b with
  | nil => intro c hc; simp [collapseWsAux] at hc
  | cons a t ih =>
    intro c hc
    simp only [collapseWsAux] at hc
    by_cases ha : pyIsSpace a = true
    · rw [if_pos ha] at hc
      cases b with
      | true =>
        rw [if_pos rfl] at hc
        rcases ih true c hc with h | ⟨h1, h2⟩
        · exact Or.inl h
        · exact Or.inr ⟨h1, List.mem_cons_of_mem _ h2⟩
      | false =>
        rw [if_neg Bool.false_ne_true] at hc
        rcases List.mem_cons.1 hc with h | h
        · exact Or.inl h
        · rcases ih true c h with h' | ⟨h1, h2⟩
          · exact Or.inl h'
          · exact Or.inr ⟨h1, List.mem_cons_of_mem _ h2⟩
    · have ha' : pyIsSpace a = false := by simpa using ha
      rw [if_neg ha] at hc
      rcases List.mem_cons.1 hc with h | h
      · subst h
        exact Or.inr ⟨ha', List.mem_cons_self _ _⟩
      · rcases ih false c h with h' | ⟨h1, h2⟩
        · exact Or.inl h'
        · exact Or.inr ⟨h1, List.mem_cons_of_mem _ h2⟩

theorem collapseWsAux_head_true :
    ∀ (l : List Char) (c : Char), (collapseWsAux true l).head? = some c →
      pyIsSpace c = false := by
  intro l
  induction l with
  | nil => intro c hc; simp [collapseWsAux] at hc
  | cons a t ih =>
    intro c hc
    simp only [collapseWsAux] at hc
    by_cases ha : pyIsSpace a = true
    · rw [if_pos ha, if_pos trivial] at hc
      exact ih c hc
    · have ha' : pyIsSpace a = false := by simpa using ha
      rw [if_neg ha] at hc
      simp only [List.head?_cons, Option.some.injEq] at hc
      subst hc
      exact ha'

theorem collapseWsAux_chain :
    ∀ (l : List Char) (b : Bool), List.Chain'
      (fun x y => pyIsSpace x = false ∨ pyIsSpace y = false) (collapseWsAux b l) := by
  intro l
  induction l with
  | nil => intro b; simp [collapseWsAux]
  | cons a t ih =>
    intro b
    simp only [collapseWsAux]
    by_cases ha : pyIsSpace a = true
    · rw [if_pos ha]
      cases b with
      | true => exact ih true
      | false =>
        rw [if_neg Bool.false_ne_true]
        rw [List.chain'_cons']
        refine ⟨?_, ih true⟩
        intro y hy
        exact Or.inr (collapseWsAux_head_true t y (Option.mem_def.1 hy))
    · have ha' : pyIsSpace a = false := by simpa using ha
      rw [if_neg ha, List.chain'_cons']
      exact ⟨fun y _ => Or.inl ha', ih false⟩

theorem collapseWsAux_eq_self :
    ∀ (l : List Char),
      (∀ c ∈ l, pyIsSpace c = true → c = ' ') →
      List.Chain' (fun x y => pyIsSpace x = false ∨ pyIsSpace y = false) l →
      ∀ b : Bool, (∀ c, l.head? = some c → pyIsSpace c = true → b = false) →
      collapseWsAux b l = l := by
  intro l
  induction l with
  | nil => intro _ _ b _; rfl
  | cons a t ih =>
    intro hall hchain b hb
    simp only [collapseWsAux]
    by_cases ha : pyIsSpace a = true
    · have hb' : b = false := hb a rfl ha
      subst hb'
      rw [if_pos ha, if_neg Bool.false_ne_true]
      have ha' : a = ' ' := hall a (List.mem_cons_self _ _) ha
      rw [ha']
      congr 1
      apply ih (fun c hc => hall c (List.mem_cons_of_mem _ hc)) hchain.tail true
      intro c hc hsc
      exfalso
      rcases (List.chain'_cons'.1 hchain).1 c (Option.mem_def.2 hc) with h | h
      · rw [ha] at h; exact Bool.noConfusion h
      · rw [hsc] at h; exact Bool.noConfusion h
    · rw [if_neg ha]
      congr 1
      exact ih (fun c hc => hall c (List.mem_cons_of_mem _ hc)) hchain.tail false
        (fun c _ _ => rfl)

theorem collapseWs_eq_self {l : List Char}
    (hall : ∀ c ∈ l, pyIsSpace c = true → c = ' ')
    (hchain : List.Chain' (fun x y => pyIsSpace x = false ∨ pyIsSpace y = false) l) :
    collapseWs l = l :=
  collapseWsAux_eq_self l hall hchain false (fun _ _ _ => rfl)

theorem pyStrip_subset {l : List Char} : ∀ c ∈ pyStrip l, c ∈ l := by
  intro c hc
  unfold pyStrip at hc
  rw [List.mem_reverse] at hc
  have h1 : c ∈ (l.dropWhile pyIsSpace).reverse :=
    (List.dropWhile_sublist _).subset hc
  rw [List.mem_reverse] at h1
  exact (List.dropWhile_sublist _).subset h1

theorem pyStrip_chain {P : Char → Char → Prop}
    (hsymm : ∀ x y, P x y → P y x) {l : List Char}
    (h : List.Chain' P l) : List.Chain' P (pyStrip l) := by
  unfold pyStrip
  have h1 : List.Chain' P (l.dropWhile pyIsSpace) :=
    h.suffix (List.dropWhile_suffix _)
  have h2 : List.Chain' P (l.dropWhile pyIsSpace).reverse :=
    List.chain'_reverse.mpr (h1.imp fun x y hxy => hsymm x y hxy)
  have h3 : List.Chain' P ((l.dropWhile pyIsSpace).reverse.dropWhile pyIsSpace) :=
    h2.suffix (List.dropWhile_suffix _)
  exact List.chain'_reverse.mpr (h3.imp fun x y hxy => hsymm x y hxy)

theorem pyStrip_eq_self {l : List Char}
    (hh : ∀ c, l.head? = some c → pyIsSpace c = false)
    (hg : ∀ c, l.getLast? = some c → pyIsSpace c = false) :
    pyStrip l = l := by
  unfold pyStrip
  have h1 : l.dropWhile pyIsSpace = l := by
    cases hl : l.head? with
    | none => rw [List.head?_eq_none_iff] at hl; simp [hl]
    | some c => exact dropWhile_eq_self_of_head hl (hh c hl)
  rw [h1]
  have h2 : l.reverse.dropWhile pyIsSpace = l.reverse := by
    cases hl : l.reverse.head? with
    | none => rw [List.head?_eq_none_iff, List.reverse_eq_nil_iff] at hl; simp [hl]
    | some c =>
      refine dropWhile_eq_self_of_head hl (hg c ?_)
      rwa [List.head?_reverse] at hl
  rw [h2, List.reverse_reverse]

theorem normalizeTitle_chars {t : List Char} :
    ∀ c ∈ normalizeTitle t, c = ' ' ∨
      (pyIsSpace c = false ∧ (pyWordChar c || pyIsSpace c) = true) := by
  intro c hc
  unfold normalizeTitle at hc
  have h1 := pyStrip_subset c hc
  unfold collapseWs at h1
  rcases collapseWsAux_mem false _ c h1 with h | ⟨hns, hmem⟩
  · exact Or.inl h
  · unfold removeNonWord at hmem
    exact Or.inr ⟨hns, (List.mem_filter.1 hmem).2⟩

theorem normalizeTitle_idem (t : List Char) :
    normalizeTitle (normalizeTitle t) = normalizeTitle t := by
  have hmem : ∀ c ∈ normalizeTitle t, c = ' ' ∨
      (pyIsSpace c = false ∧ (pyWordChar c || pyIsSpace c) = true) :=
    normalizeTitle_chars
  have hop1 : '[' ∉ normalizeTitle t := by
    intro h
    rcases hmem '[' h with h' | ⟨_, h'⟩
    · exact absurd h' (by decide)
    · exact absurd h' (by decide)
  have hop2 : '(' ∉ normalizeTitle t := by
    intro h
    rcases hmem '(' h with h' | ⟨_, h'⟩
    · exact absurd h' (by decide)
    · exact absurd h' (by decide)
  have h1 : removeDelim '[' ']' (normalizeTitle t) = normalizeTitle t :=
    removeDelim_not_mem hop1
  have h2 : removeDelim '(' ')' (normalizeTitle t) = normalizeTitle t :=
    removeDelim_not_mem hop2
  have h3 : removeNonWord (normalizeTitle t) = normalizeTitle t := by
    unfold removeNonWord
    rw [List.filter_eq_self]
    intro c hc
    rcases hmem c hc with h | ⟨_, h⟩
    · subst h; decide
    · exact h
  have hch : List.Chain' (fun x y => pyIsSpace x = false ∨ pyIsSpace y = false)
      (normalizeTitle t) := by
    unfold normalizeTitle
    exact pyStrip_chain (fun x y h => h.symm) (collapseWsAux_chain _ false)
  have hall : ∀ c ∈ normalizeTitle t, pyIsSpace c = true → c = ' ' := by
    intro c hc hs
    rcases hmem c hc with h | ⟨h', _⟩
    · exact h
    · rw [hs] at h'; exact Bool.noConfusion h'
  have h4 : collapseWs (normalizeTitle t) = normalizeTitle t :=
    collapseWs_eq_self hall hch
  have h5 : pyStrip (normalizeTitle t) = normalizeTitle t := by
    refine pyStrip_eq_self (fun c hc => ?_) (fun c hc => ?_)
    · exact pyStrip_head hc
    · exact pyStrip_getLast hc
  show pyStrip (collapseWs (removeNonWord
    (removeDelim '(' ')' (removeDelim '[' ']' (normalizeTitle t))))) = normalizeTitle t
  rw [h1, h2, h3, h4, h5]

/-! ## Helper lemma: conditional idempotence of `_normalize_url` -/

theorem normalizeUrl_idem_aux {C : UrlChecks} {u r : List Char}
    (h : normalizeUrl C u = some r)
    (hne : ∀ p, urlparseM C u = some p → p.netloc ≠ [])
    (hlast : r.getLast? ≠ some ';') :
    normalizeUrl C r = some r := by
  rw [normalizeUrl, Option.map_eq_some'] at h
  rcases h with ⟨p, hp, hr⟩
  have hne' := hne p hp
  obtain ⟨hnspec, hp7, hp5, hq7p, hq5p⟩ := urlparseM_spec hp
  obtain ⟨hcn, hcp, hcq, hbr, hbc, hnf⟩ := urlparseM_extra hp
  obtain ⟨q, hshape, hq_head, hq_strip, hq_mem⟩ := recombine_netloc_shape p hne' hnspec
  subst hr
  have hq7 : '#' ∉ q := by
    intro hc
    rcases hq_mem '#' hc with h' | h' | h' | h'
    · exact hp7 h'
    · exact absurd h' (by decide)
    · exact hq7p h'
    · exact absurd h' (by decide)
  have hq5 : '?' ∉ q := by
    intro hc
    rcases hq_mem '?' hc with h' | h' | h' | h'
    · exact hp5 h'
    · exact absurd h' (by decide)
    · exact hq5p h'
    · exact absurd h' (by decide)
  have hclean : ∀ c ∈ p.netloc ++ q, (c == '\t' || c == '\r' || c == '\n') = false := by
    intro c hc
    rcases List.mem_append.1 hc with h' | h'
    · exact hcn c h'
    · rcases hq_mem c h' with h'' | h'' | h'' | h''
      · exact hcp c h''
      · subst h''; decide
      · exact hcq c h''
      · subst h''; decide
  have hq_last : q.getLast? ≠ some ';' := by
    rcases hq_head with h0 | h0
    · subst h0; simp
    · intro hg
      apply hlast
      rw [hshape]
      have hqne : q ≠ [] := by
        intro hq0
        rw [hq0] at h0
        simp at h0
      rw [show chars "https:" ++ ('/' :: '/' :: (p.netloc ++ q)) =
        (chars "https:" ++ ('/' :: '/' :: p.netloc)) ++ q by simp]
      rw [List.getLast?_append_of_ne_nil _ hqne]
      exact hg
  rw [hshape]
  exact normalizeUrl_fixed hne' hnspec hbr hbc hnf hclean hq_head hq7 hq5
    hq_strip hq_last

/-- C6 witness: the amended statement evaluated at the spec's own
exact-URL example `http://x.com/a?utm_source=y#frag`. -/
theorem claim_C6_witness :
    normalizeUrl defaultChecks (chars "http://x.com/a?utm_source=y#frag") =
        some (chars "https://x.com/a") ∧
      ((chars "https://x.com/a").take 6 = chars "https:" ∧
        ('?' ∉ chars "https://x.com/a") ∧ ('#' ∉ chars "https://x.com/a") ∧
        ∀ c, (chars "https://x.com/a").getLast? = some c → c ≠ '/') :=
  ⟨by decide,
    claim_C6 defaultChecks (chars "http://x.com/a?utm_source=y#frag")
      (chars "https://x.com/a") (by decide)⟩

/-- C7 counterexample: URL canonicalization is not idempotent. First, a
path whose trailing `;` survives one pass (`params` are split at the `;`
after the last `/`, so `/a;/` strips to `/a;` whose own re-parse then
drops the now-final params separator). Second, a canonical result can
even fail to re-parse: `https:////[x` has an empty authority, so its
recombination `https://[x` puts `[x` in authority position, and the
unmatched bracket raises `ValueError` on the second pass. -/
theorem claim_C7_counterexample :
    (normalizeUrl defaultChecks (chars "https://x/a;/") =
        some (chars "https://x/a;") ∧
      normalizeUrl defaultChecks (chars "https://x/a;") =
        some (chars "https://x/a") ∧
      chars "https://x/a" ≠ chars "https://x/a;") ∧
    (normalizeUrl defaultChecks (chars "https:////[x") =
        some (chars "https://[x") ∧
      normalizeUrl defaultChecks (chars "https://[x") = none) :=
  ⟨⟨by decide, by decide, by decide⟩, by decide, by decide⟩

/-- C7 (amended): title normalization is idempotent for every input. URL
canonicalization is not idempotent in general — the result of one pass
can end in a params separator `;` that a second pass drops, and can even
fail to re-parse (see the counterexample) — but it is idempotent on every
result whose first parse has a non-empty authority and which does not end
in `;`. -/
theorem claim_C7 :
    (∀ t : List Char, normalizeTitle (normalizeTitle t) = normalizeTitle t) ∧
    (∀ (C : UrlChecks) (u r : List Char),
      normalizeUrl C u = some r →
      (∀ p, urlparseM C u = some p → p.netloc ≠ []) →
      r.getLast? ≠ some ';' →
      normalizeUrl C r = some r) :=
  ⟨normalizeTitle_idem,
    fun _ _ _ h hne hlast => normalizeUrl_idem_aux h hne hlast⟩

/-- C7 witness: the title half evaluated on a bracketed, punctuated,
multi-space title; the URL half on `http://example.com/a/`, whose
canonical form `https://example.com/a` is indeed a fixed point. -/
theorem claim_C7_witness :
    normalizeTitle (normalizeTitle (chars "[AI] Hello,  world! (beta)")) =
        normalizeTitle (chars "[AI] Hello,  world! (beta)") ∧
    (normalizeUrl defaultChecks (chars "http://example.com/a/") =
        some (chars "https://example.com/a") ∧
      normalizeUrl defaultChecks (chars "https://example.com/a") =
        some (chars "https://example.com/a")) :=
  ⟨claim_C7.1 (chars "[AI] Hello,  world! (beta)"),
    by decide,
    claim_C7.2 defaultChecks (chars "http://example.com/a/")
      (chars "https://example.com/a") (by decide)
      (fun p hp => by
        rw [(by decide : urlparseM defaultChecks (chars "http://example.com/a/") =
          some ⟨chars "http", chars "example.com", chars "/a/", [], [], []⟩)] at hp
        injection hp with h
        rw [← h]
        decide)
      (by decide)⟩

end NewsScrap
